import Mathlib

/-!
# Verification of the c4-memory Memory Evolution Engine

Shallow embedding of the memory-evolution core of the `c4-memory` repository:
usefulness scoring, feedback recording, access-pattern relationship learning,
pruning, and consolidation, together with proofs of the specification claims.

Modelling conventions:
* SQLite tables (`memories`, `memory_relationships`, `memory_feedback`) are
  lists of records; row order is insertion order, `INSERT` appends,
  `UPDATE ... WHERE id = ?` maps over the list, `DELETE ... WHERE ...` filters.
* JavaScript numbers holding scores/strengths are modelled as exact rationals
  (`ℚ`); millisecond timestamps as integers (`ℤ`); `Math.floor` of an integer
  quotient is `Int.fdiv`.
* The transcendental usefulness-score formula (`Math.pow`, `Math.log`) is
  modelled over the reals (`ℝ`); the stateful database operations take the
  scorer as an explicit function parameter, so the state-level theorems hold
  for every scorer.
* `Date.now()` is passed in as an explicit `now : ℤ` parameter; a single
  operation uses one time point.
* Warning strings pushed by the tools are modelled structurally by the
  `Warning` inductive: each constructor records exactly the data interpolated
  into the corresponding message string.
* Text content (`encoded`, `decoded_cache`) is opaque to every operation a
  claim is about and is omitted from the memory record.
-/

namespace C4

/-! ## Usefulness scorer (src/db/operations.ts, `updateUsefulnessScore`)

The score computation reads `importance`, `times_helpful`, `times_unhelpful`,
`accessed_at`, `access_count` and the current time; `daysSinceAccess` is the
real-valued quotient `(Date.now() - accessed_at) / 86400000`.  We model the
formula as a function of the four counters and the real number of days. -/

/-- `helpfulRatio = (timesHelpful + 1) / (timesHelpful + timesUnhelpful + 2)`. -/
noncomputable def helpfulRatio (timesHelpful timesUnhelpful : ℕ) : ℝ :=
  (timesHelpful + 1) / (timesHelpful + timesUnhelpful + 2)

/-- `recencyBoost = Math.pow(0.98, Math.min(daysSinceAccess, 365))`. -/
noncomputable def recencyBoost (daysSinceAccess : ℝ) : ℝ :=
  (0.98 : ℝ) ^ (min daysSinceAccess 365)

/-- `accessBoost = Math.log(accessCount + 1) / 10`. -/
noncomputable def accessBoost (accessCount : ℕ) : ℝ :=
  Real.log (accessCount + 1) / 10

/-- The value computed and stored by `updateUsefulnessScore`:
`Math.min(9.0, Math.max(1.0, importance * (0.5 + helpfulRatio*0.3 + recencyBoost*0.15 + accessBoost*0.05)))`. -/
noncomputable def updateUsefulnessScore (importance timesHelpful timesUnhelpful accessCount : ℕ)
    (daysSinceAccess : ℝ) : ℝ :=
  min 9 (max 1 ((importance : ℝ) *
    (0.5 + helpfulRatio timesHelpful timesUnhelpful * 0.3 +
      recencyBoost daysSinceAccess * 0.15 + accessBoost accessCount * 0.05)))

/-- The spec's clamp: `clamp(x, lo, hi)` keeps `x` inside `[lo, hi]`. -/
noncomputable def clampSpec (x lo hi : ℝ) : ℝ := max lo (min hi x)

/-- Written from the spec's words (§4.1 steps 4–5), for comparison with
`updateUsefulnessScore`:
`clamp(importance × (0.5 + 0.3·helpfulRatio + 0.15·recencyBoost + 0.05·accessBoost), 1.0, 9.0)`. -/
noncomputable def specScore (importance timesHelpful timesUnhelpful accessCount : ℕ)
    (daysSinceAccess : ℝ) : ℝ :=
  clampSpec ((importance : ℝ) *
    (0.5 + 0.3 * helpfulRatio timesHelpful timesUnhelpful +
      0.15 * recencyBoost daysSinceAccess + 0.05 * accessBoost accessCount)) 1 9

/-! ## Data model (src/types.ts, src/db/schema.ts migration v2) -/

/-- `status TEXT CHECK(status IN ('active', 'archived', 'consolidated'))`. -/
inductive MStatus
  | active
  | archived
  | consolidated
  deriving DecidableEq, Repr

/-- `scope TEXT CHECK(scope IN ('global', 'project'))`. -/
inductive MScope
  | global
  | project
  deriving DecidableEq, Repr

/-- `feedback_type TEXT CHECK(feedback_type IN ('helpful','unhelpful','outdated','incorrect'))`. -/
inductive FbType
  | helpful
  | unhelpful
  | outdated
  | incorrect
  deriving DecidableEq, Repr

/-- `relationship TEXT CHECK(relationship IN ('similar','supersedes','contradicts','derived_from'))`. -/
inductive RelType
  | similar
  | supersedes
  | contradicts
  | derived_from
  deriving DecidableEq, Repr

/-- A row of the `memories` table (columns relevant to the evolution engine;
the text-content columns are opaque to every modelled operation). -/
structure Mem where
  id : ℕ
  importance : ℕ
  usefulnessScore : ℚ
  timesHelpful : ℕ
  timesUnhelpful : ℕ
  status : MStatus
  parentId : Option ℕ
  level : ℕ
  scope : MScope
  projectHash : Option String
  accessedAt : ℤ
  accessCount : ℕ
  lastDecay : Option ℤ
  deriving DecidableEq, Repr

/-- A row of the `memory_relationships` table. -/
structure Rel where
  id : ℕ
  sourceId : ℕ
  targetId : ℕ
  rtype : RelType
  strength : ℚ
  createdAt : ℤ
  deriving DecidableEq, Repr

/-- A row of the `memory_feedback` table. -/
structure FbEvent where
  id : ℕ
  memoryId : ℕ
  ftype : FbType
  context : Option String
  timestamp : ℤ
  deriving DecidableEq, Repr

/-- The database state: the three tables plus the AUTOINCREMENT counters. -/
structure Db where
  memories : List Mem
  rels : List Rel
  feedback : List FbEvent
  nextMemoryId : ℕ
  nextRelId : ℕ
  nextFbId : ℕ
  deriving DecidableEq, Repr

/-- Milliseconds per day: `1000 * 60 * 60 * 24`. -/
def dayMs : ℤ := 86400000

/-- `Math.floor((now - accessedAt) / (1000*60*60*24))` on integer timestamps. -/
def daysSinceAccess (now accessedAt : ℤ) : ℤ := (now - accessedAt).fdiv dayMs

/-- Errors surfaced by single-item store operations.  `notFound` models the
failure when a referenced memory id does not resolve (at the SQL level this is
the `FOREIGN KEY ... REFERENCES memories(id)` constraint, enforced because
`initializeSchema` sets `PRAGMA foreign_keys = ON`). -/
inductive DbErr
  | notFound
  deriving DecidableEq, Repr

/-- Warning messages pushed by the tools, modelled structurally: each
constructor records the data interpolated into the message string. -/
inductive Warning
  | highImportance (id importance : ℕ)
  | recentlyAccessed (id : ℕ) (days : ℤ)
  | noneEligible
  | memNotFound (id : ℕ)
  | noMemoryIds
  deriving DecidableEq, Repr

/-! ## Store operations (src/db/operations.ts) -/

/-- `UPDATE memories SET ... WHERE id = ?`: apply `g` to every row whose id
matches. -/
def updMemAt (l : List Mem) (id : ℕ) (g : Mem → Mem) : List Mem :=
  l.map fun m => if m.id = id then g m else m

/-- `UPDATE memory_relationships SET ... WHERE id = ?`. -/
def updRelAt (l : List Rel) (id : ℕ) (g : Rel → Rel) : List Rel :=
  l.map fun r => if r.id = id then g r else r

/-- The row update `SET accessed_at = ?, access_count = access_count + 1`. -/
def accessBump (now : ℤ) : Mem → Mem := fun r =>
  { r with accessedAt := now, accessCount := r.accessCount + 1 }

/-- `getMemory(db, id)`: `SELECT ... WHERE id = ?`; when a row is found, set
`accessed_at` to now and increment `access_count`, returning the row as read
(before the update). -/
def getMemory (db : Db) (id : ℕ) (now : ℤ) : Option Mem × Db :=
  match db.memories.find? (fun m => m.id = id) with
  | none => (none, db)
  | some m =>
      (some m, { db with memories := updMemAt db.memories id (accessBump now) })

/-- `updateMemoryStatus(db, memoryId, status, parentId?)`: sets `status` and
`parent_id` (to NULL when no parent is passed). -/
def updateMemoryStatus (db : Db) (memoryId : ℕ) (status : MStatus) (parentId : Option ℕ) : Db :=
  let g : Mem → Mem := fun m => { m with status := status, parentId := parentId }
  { db with memories := updMemAt db.memories memoryId g }

/-- `deleteMemory(db, id)`: `DELETE FROM memories WHERE id = ?`.  Because
`PRAGMA foreign_keys = ON`, the `ON DELETE CASCADE` clauses of
`memory_feedback` and `memory_relationships` (both directions) also remove the
memory's feedback rows and relationship edges. -/
def deleteMemory (db : Db) (id : ℕ) : Db :=
  { db with
      memories := db.memories.filter (fun m => ¬ m.id = id),
      rels := db.rels.filter (fun r => ¬ r.sourceId = id ∧ ¬ r.targetId = id),
      feedback := db.feedback.filter (fun e => ¬ e.memoryId = id) }

/-- The type of the scorer used by the stateful operations: it receives the
columns read by `updateUsefulnessScore` (`importance, times_helpful,
times_unhelpful, accessed_at, access_count`) and the current time.  The
concrete scorer is the real-valued `updateUsefulnessScore` formula above; the
state-level theorems hold for every scorer. -/
def Scorer : Type := ℕ → ℕ → ℕ → ℤ → ℕ → ℤ → ℚ

/-- The row update `SET usefulness_score = ?, last_decay = ?`. -/
def scoreWrite (s : ℚ) (now : ℤ) : Mem → Mem := fun r =>
  { r with usefulnessScore := s, lastDecay := some now }

/-- The stateful part of `updateUsefulnessScore(db, memoryId)`: read the row,
compute the score, store it together with `last_decay = Date.now()`; a missing
row yields `5.0` with no write. -/
def updateUsefulnessScoreOp (scorer : Scorer) (db : Db) (memoryId : ℕ) (now : ℤ) : ℚ × Db :=
  match db.memories.find? (fun m => m.id = memoryId) with
  | none => (5, db)
  | some m =>
      (scorer m.importance m.timesHelpful m.timesUnhelpful m.accessedAt m.accessCount now,
       { db with
          memories := updMemAt db.memories memoryId
                        (scoreWrite (scorer m.importance m.timesHelpful m.timesUnhelpful
                          m.accessedAt m.accessCount now) now) })

/-- The counter update of `recordFeedback`: `helpful` bumps `times_helpful`,
`unhelpful`/`incorrect` bump `times_unhelpful`, `outdated` bumps neither. -/
def feedbackCounterBump (ftype : FbType) (l : List Mem) (memoryId : ℕ) : List Mem :=
  if ftype = FbType.helpful then
    updMemAt l memoryId (fun m => { m with timesHelpful := m.timesHelpful + 1 })
  else if ftype = FbType.unhelpful ∨ ftype = FbType.incorrect then
    updMemAt l memoryId (fun m => { m with timesUnhelpful := m.timesUnhelpful + 1 })
  else l

/-- `recordFeedback(db, memoryId, feedbackType, context?)`: append a
`memory_feedback` row, bump the helpful/unhelpful counter, recompute the
usefulness score.  When the memory id does not resolve, the very first
statement (the log `INSERT`) fails on the foreign-key constraint, so the call
errors with nothing applied. -/
def recordFeedback (scorer : Scorer) (db : Db) (memoryId : ℕ) (ftype : FbType)
    (context : Option String) (now : ℤ) : Except DbErr (FbEvent × Db) :=
  if db.memories.any (fun m => m.id = memoryId) then
    Except.ok (⟨db.nextFbId, memoryId, ftype, context, now⟩,
      (updateUsefulnessScoreOp scorer
        ⟨feedbackCounterBump ftype db.memories memoryId, db.rels,
          db.feedback ++ [⟨db.nextFbId, memoryId, ftype, context, now⟩],
          db.nextMemoryId, db.nextRelId, db.nextFbId + 1⟩ memoryId now).2)
  else
    Except.error DbErr.notFound

/-! ## Pruning (src/tools/prune.ts, src/db/operations.ts `getLowUsefulnessMemories`) -/

/-- `getLowUsefulnessMemories(db, maxUsefulness, maxDaysSinceAccess, limit)`:
`SELECT ... WHERE status='active' AND usefulness_score < ? AND accessed_at < ?
AND importance < 8 ORDER BY usefulness_score ASC LIMIT ?` with
`cutoffTime = Date.now() - maxDaysSinceAccess*86400000`.  `ORDER BY` is
modelled as a stable insertion sort on the score. -/
def getLowUsefulnessMemories (db : Db) (maxUsefulness : ℚ) (maxDaysSinceAccess : ℤ)
    (limit : ℕ) (now : ℤ) : List Mem :=
  let cutoffTime := now - maxDaysSinceAccess * dayMs
  let sel := db.memories.filter fun m =>
    m.status = MStatus.active ∧ m.usefulnessScore < maxUsefulness ∧
      m.accessedAt < cutoffTime ∧ m.importance < 8
  (sel.insertionSort fun a b => a.usefulnessScore ≤ b.usefulnessScore).take limit

/-- The optional `memory_prune` tool input (all fields optional, with defaults
`minUsefulness 2.0`, `maxAge 90`, `dryRun false`, `permanent false`). -/
structure PruneInput where
  minUsefulness : Option ℚ
  maxAge : Option ℤ
  dryRun : Option Bool
  permanent : Option Bool
  deriving DecidableEq, Repr

/-- The claim-relevant part of `PruneResult` (`spaceSaved` and the per-memory
preview strings are byte-count bookkeeping over the opaque text fields). -/
structure PruneResult where
  success : Bool
  dryRun : Bool
  memoriesPruned : ℕ
  prunedIds : List ℕ
  warnings : List Warning
  deriving DecidableEq, Repr

/-- The candidate list of `prune` after the optional project filter
(`scope === 'global' || m.projectHash === projectHash`). -/
def pruneFiltered (db : Db) (input : PruneInput) (projectHash : Option String)
    (now : ℤ) : List Mem :=
  let minUsefulness := input.minUsefulness.getD 2
  let maxAge := input.maxAge.getD 90
  let candidates := getLowUsefulnessMemories db minUsefulness maxAge 200 now
  match projectHash with
  | none => candidates
  | some h => candidates.filter fun m => m.scope = MScope.global ∨ m.projectHash = some h

/-- The safety filter of `prune`: one scan that drops `importance >= 8` and
`daysSinceAccess < 7` entries, pushing a warning for each drop. -/
def pruneSafetyStep (now : ℤ) (acc : List Mem × List Warning) (m : Mem) :
    List Mem × List Warning :=
  let days := daysSinceAccess now m.accessedAt
  if 8 ≤ m.importance then (acc.1, acc.2 ++ [Warning.highImportance m.id m.importance])
  else if days < 7 then (acc.1, acc.2 ++ [Warning.recentlyAccessed m.id days])
  else (acc.1 ++ [m], acc.2)

/-- The `safeMemories` list of `prune`: candidates surviving the safety scan. -/
def pruneSafe (db : Db) (input : PruneInput) (projectHash : Option String) (now : ℤ) :
    List Mem :=
  ((pruneFiltered db input projectHash now).foldl (pruneSafetyStep now) ([], [])).1

/-- The warnings accumulated by `prune`'s safety scan. -/
def pruneScanWarnings (db : Db) (input : PruneInput) (projectHash : Option String) (now : ℤ) :
    List Warning :=
  ((pruneFiltered db input projectHash now).foldl (pruneSafetyStep now) ([], [])).2

/-- `prune(db, input, projectHash?)`: select candidates, apply the safety
filter, then (unless `dryRun`) archive — or, when `permanent`, delete — each
selected memory. -/
def prune (db : Db) (input : PruneInput) (projectHash : Option String) (now : ℤ) :
    PruneResult × Db :=
  if (pruneSafe db input projectHash now).isEmpty then
    ({ success := true, dryRun := input.dryRun.getD false, memoriesPruned := 0, prunedIds := [],
       warnings := if (pruneScanWarnings db input projectHash now).isEmpty
         then [Warning.noneEligible] else pruneScanWarnings db input projectHash now }, db)
  else if input.dryRun.getD false then
    ({ success := true, dryRun := true,
       memoriesPruned := (pruneSafe db input projectHash now).length,
       prunedIds := (pruneSafe db input projectHash now).map (·.id),
       warnings := pruneScanWarnings db input projectHash now }, db)
  else
    ({ success := true, dryRun := false,
       memoriesPruned := (pruneSafe db input projectHash now).length,
       prunedIds := (pruneSafe db input projectHash now).map (·.id),
       warnings := pruneScanWarnings db input projectHash now },
     if input.permanent.getD false then
       (pruneSafe db input projectHash now).foldl (fun d m => deleteMemory d m.id) db
     else
       (pruneSafe db input projectHash now).foldl
         (fun d m => updateMemoryStatus d m.id MStatus.archived none) db)

/-! ## Feedback tool (src/tools/feedback.ts) -/

/-- One entry of `FeedbackResult.memoriesUpdated`. -/
structure FbUpdate where
  id : ℕ
  newUsefulnessScore : ℚ
  timesHelpful : ℕ
  timesUnhelpful : ℕ
  deriving DecidableEq, Repr

/-- The claim-relevant part of `FeedbackResult`. -/
structure FbResult where
  success : Bool
  feedbackRecorded : ℕ
  memoriesUpdated : List FbUpdate
  warnings : List Warning
  deriving DecidableEq, Repr

/-- The body of the `feedback` tool's loop over `input.memoryIds`: look the
memory up (bumping its access stats), record the feedback, read the updated
row (bumping again) for the result entry.  A missing id only adds a warning;
a store error propagates (the tool has no catch). -/
def feedbackLoop (scorer : Scorer) (ftype : FbType) (context : Option String) (now : ℤ) :
    List ℕ → Db → List FbUpdate → List Warning →
    Except DbErr ((List FbUpdate × List Warning) × Db)
  | [], db, upds, ws => Except.ok ((upds, ws), db)
  | id :: rest, db, upds, ws =>
    match getMemory db id now with
    | (none, db1) => feedbackLoop scorer ftype context now rest db1 upds
        (ws ++ [Warning.memNotFound id])
    | (some _, db1) =>
      match recordFeedback scorer db1 id ftype context now with
      | Except.error e => Except.error e
      | Except.ok (_, db2) =>
        match getMemory db2 id now with
        | (some u, db3) => feedbackLoop scorer ftype context now rest db3
            (upds ++ [⟨id, u.usefulnessScore, u.timesHelpful, u.timesUnhelpful⟩]) ws
        | (none, db3) => feedbackLoop scorer ftype context now rest db3 upds ws

/-- `feedback(input)`: guard against an empty id list, then run the loop. -/
def feedbackTool (scorer : Scorer) (db : Db) (memoryIds : List ℕ) (ftype : FbType)
    (context : Option String) (now : ℤ) : Except DbErr (FbResult × Db) :=
  if memoryIds.isEmpty then
    Except.ok ({ success := false, feedbackRecorded := 0, memoriesUpdated := [],
                 warnings := [Warning.noMemoryIds] }, db)
  else
    match feedbackLoop scorer ftype context now memoryIds db [] [] with
    | Except.error e => Except.error e
    | Except.ok ((upds, ws), db') =>
        Except.ok ({ success := true, feedbackRecorded := upds.length,
                     memoriesUpdated := upds, warnings := ws }, db')

/-! ## Access-pattern learning (src/db/operations.ts) -/

/-- Canonicalize an id pair as `(min, max)` (`memoryIds[i] < memoryIds[j] ?
[memoryIds[i], memoryIds[j]] : [memoryIds[j], memoryIds[i]]`). -/
def canonPair (a b : ℕ) : ℕ × ℕ := if a < b then (a, b) else (b, a)

/-- The pairs visited by `recordCoAccess`'s double loop `i < j`, in loop
order, canonicalized. -/
def canonPairs : List ℕ → List (ℕ × ℕ)
  | [] => []
  | x :: xs => xs.map (canonPair x) ++ canonPairs xs

/-- Look up the canonical `similar` edge for a pair:
`SELECT ... WHERE source_id = ? AND target_id = ? AND relationship = 'similar'`
(first matching row). -/
def simLookup (rels : List Rel) (s t : ℕ) : Option Rel :=
  rels.find? fun r => r.sourceId = s ∧ r.targetId = t ∧ r.rtype = RelType.similar

/-- One iteration of `recordCoAccess`: strengthen the existing canonical
`similar` edge (`min(10, existing.strength + strength)`, updated by row id) or
insert a new one at `strength`. -/
def upsertSimilar (db : Db) (p : ℕ × ℕ) (strength : ℚ) (now : ℤ) : Db :=
  match simLookup db.rels p.1 p.2 with
  | some e =>
      { db with rels := updRelAt db.rels e.id
                          (fun r => { r with strength := min 10 (e.strength + strength) }) }
  | none =>
      { db with
          rels := db.rels ++ [⟨db.nextRelId, p.1, p.2, RelType.similar, strength, now⟩],
          nextRelId := db.nextRelId + 1 }

/-- The strength an upserted canonical `similar` edge ends with: the capped
sum when the edge existed, the raw increment when it was created (vocabulary
for the theorems below). -/
def upsertedStrength (rels : List Rel) (p : ℕ × ℕ) (inc : ℚ) : ℚ :=
  match simLookup rels p.1 p.2 with
  | some e => min 10 (e.strength + inc)
  | none => inc

/-- Well-formedness of the edge table: distinct row ids, all below the
AUTOINCREMENT counter. -/
def RelsWF (db : Db) : Prop :=
  (db.rels.map (·.id)).Nodup ∧ ∀ r ∈ db.rels, r.id < db.nextRelId

/-- `recordCoAccess(db, memoryIds, strength)`: no-op for fewer than two ids,
otherwise upsert every canonical pair. -/
def recordCoAccess (db : Db) (memoryIds : List ℕ) (strength : ℚ) (now : ℤ) : Db :=
  if memoryIds.length < 2 then db
  else (canonPairs memoryIds).foldl (fun d p => upsertSimilar d p strength now) db

/-- The edge-table transformation of `decayRelationshipStrengths`:
`UPDATE memory_relationships SET strength = strength * ? WHERE strength > ?`
then `DELETE FROM memory_relationships WHERE strength < ?`. -/
def decayRels (decayFactor minStrength : ℚ) (rels : List Rel) : List Rel :=
  (rels.map fun r =>
    if minStrength < r.strength then { r with strength := r.strength * decayFactor } else r).filter
    fun r => ¬ r.strength < minStrength

/-- `decayRelationshipStrengths(db, decayFactor, minStrength)`: apply
`decayRels` to the edge table; return the number of updated rows
(`result.changes` of the `UPDATE`). -/
def decayRelationshipStrengths (db : Db) (decayFactor minStrength : ℚ) : ℕ × Db :=
  ((db.rels.filter fun r => minStrength < r.strength).length,
   { db with rels := decayRels decayFactor minStrength db.rels })

/-- Per-edge view of `decayRels` (vocabulary for the theorems below): the
fate of a single edge under one decay pass. -/
def decayStep (decayFactor minStrength : ℚ) (r : Rel) : Option Rel :=
  if minStrength < r.strength then
    (if r.strength * decayFactor < minStrength then none
     else some { r with strength := r.strength * decayFactor })
  else (if r.strength < minStrength then none else some r)

/-- The `CASE WHEN source_id IN (...) THEN target_id ELSE source_id END`
projection of `getSuggestedMemories`. -/
def relatedId (currentIds : List ℕ) (r : Rel) : ℕ :=
  if r.sourceId ∈ currentIds then r.targetId else r.sourceId

/-- The rows scanned by `getSuggestedMemories`: `similar` edges touching the
current set. -/
def simRows (db : Db) (currentIds : List ℕ) : List Rel :=
  db.rels.filter fun r =>
    (r.sourceId ∈ currentIds ∨ r.targetId ∈ currentIds) ∧ r.rtype = RelType.similar

/-- `SUM(strength) ... GROUP BY related_id` for one group key. -/
def coAccessTotal (db : Db) (currentIds : List ℕ) (k : ℕ) : ℚ :=
  (((simRows db currentIds).filter fun r => relatedId currentIds r = k).map (·.strength)).sum

/-- `ORDER BY total_strength DESC`: the SQL sorts only by the summed strength;
ties are left to the query's internal order, modelled as ascending group key
(the order in which `GROUP BY related_id` emits groups). -/
def suggOrder (p q : ℕ × ℚ) : Prop := q.2 < p.2 ∨ (p.2 = q.2 ∧ p.1 ≤ q.1)

instance : DecidableRel suggOrder := fun p q =>
  inferInstanceAs (Decidable (q.2 < p.2 ∨ (p.2 = q.2 ∧ p.1 ≤ q.1)))

instance : IsTrans (ℕ × ℚ) suggOrder := by
  constructor
  rintro a b c (h1 | ⟨h1, h1'⟩) (h2 | ⟨h2, h2'⟩)
  · exact Or.inl (lt_trans h2 h1)
  · exact Or.inl (h2 ▸ h1)
  · exact Or.inl (h1 ▸ h2)
  · exact Or.inr ⟨h1.trans h2, h1'.trans h2'⟩

instance : IsTotal (ℕ × ℚ) suggOrder := by
  constructor
  intro a b
  rcases lt_trichotomy a.2 b.2 with h | h | h
  · exact Or.inr (Or.inl h)
  · rcases le_total a.1 b.1 with h' | h'
    · exact Or.inl (Or.inr ⟨h, h'⟩)
    · exact Or.inr (Or.inr ⟨h.symm, h'⟩)
  · exact Or.inl (Or.inl h)

/-- The `(related_id, total_strength)` rows of the grouped query, after the
`HAVING related_id NOT IN (...)` clause, sorted. -/
def suggestPairs (db : Db) (currentIds : List ℕ) : List (ℕ × ℚ) :=
  let keys := (((simRows db currentIds).map (relatedId currentIds)).dedup).filter
    (fun k => k ∉ currentIds)
  (keys.map fun k => (k, coAccessTotal db currentIds k)).insertionSort suggOrder

/-- The fetch loop of `getSuggestedMemories`: `getMemory` each suggested row
(bumping its access stats) and keep the active ones. -/
def fetchActive (now : ℤ) : List (ℕ × ℚ) → Db → List Mem × Db
  | [], db => ([], db)
  | p :: ps, db =>
    match getMemory db p.1 now with
    | (none, db1) => fetchActive now ps db1
    | (some m, db1) =>
      let rec' := fetchActive now ps db1
      if m.status = MStatus.active then (m :: rec'.1, rec'.2) else rec'

/-- `getSuggestedMemories(db, currentMemoryIds, limit)`. -/
def getSuggestedMemories (db : Db) (currentMemoryIds : List ℕ) (limit : ℕ) (now : ℤ) :
    List Mem × Db :=
  if currentMemoryIds.isEmpty then ([], db)
  else fetchActive now ((suggestPairs db currentMemoryIds).take limit) db

/-- Side-effect-free view of the fetch loop against a fixed snapshot
(vocabulary for the theorems below): the rows fetched and kept. -/
def pureFetch (db : Db) (ps : List (ℕ × ℚ)) : List Mem :=
  ps.filterMap fun p =>
    match db.memories.find? (fun m => m.id = p.1) with
    | some m => if m.status = MStatus.active then some m else none
    | none => none

/-! ## Consolidation (the consolidate.ts source, staged as the third document
of src/src/hooks/memory-enforced.js, lines 488–847) -/

/-- `createMemory(db, input)` (src/db/operations.ts): `INSERT INTO memories`
with the caller's scope/projectHash/importance, `created_at = accessed_at =
Date.now()`, `access_count 0`, and the v2 column defaults `usefulness_score
5.0`, counters 0, `status 'active'`, no parent, `level 1`; the returned record
carries `lastInsertRowid`.  The text columns are opaque. -/
def createMemory (db : Db) (scope : MScope) (projectHash : Option String)
    (importance : ℕ) (now : ℤ) : Mem × Db :=
  (⟨db.nextMemoryId, importance, 5, 0, 0, MStatus.active, none, 1, scope,
      projectHash, now, 0, none⟩,
   { db with
      memories := db.memories ++
        [⟨db.nextMemoryId, importance, 5, 0, 0, MStatus.active, none, 1, scope,
            projectHash, now, 0, none⟩],
      nextMemoryId := db.nextMemoryId + 1 })

/-- The raw `UPDATE memories SET level = ? WHERE id = ?` that `consolidate`
issues right after creating the abstraction memory. -/
def setMemoryLevel (db : Db) (memoryId : ℕ) (level : ℕ) : Db :=
  { db with memories := updMemAt db.memories memoryId (fun m => { m with level := level }) }

/-- `createRelationship(db, sourceId, targetId, relationship, strength)`
(src/db/operations.ts): `INSERT INTO memory_relationships`. -/
def createRelationship (db : Db) (sourceId targetId : ℕ) (rtype : RelType) (strength : ℚ)
    (now : ℤ) : Rel × Db :=
  (⟨db.nextRelId, sourceId, targetId, rtype, strength, now⟩,
   { db with rels := db.rels ++ [⟨db.nextRelId, sourceId, targetId, rtype, strength, now⟩],
             nextRelId := db.nextRelId + 1 })

/-- A cluster record built by `findSimilarClusters`: the member memories,
their average pairwise similarity, and `combinedImportance = min(9,
maxImportance + floor(log2(clusterSize)))`; the `suggestedAbstraction` text is
opaque. -/
structure ConsolidationCluster where
  memories : List Mem
  averageSimilarity : ℚ
  combinedImportance : ℕ
  deriving DecidableEq, Repr

/-- The inner scan of `findSimilarClusters`' greedy loop: walk all candidate
memories, skipping already-assigned ids and memories without a stored
embedding, and add to the anchor's cluster every one whose similarity to the
anchor reaches the threshold, marking it assigned.  `emb` abstracts
`getEmbedding(db, id) != null` and `sim` abstracts `cosineSimilarity` of the
two stored vectors — the external embedding collaborator, specified at its
interface boundary. -/
def growCluster (emb : ℕ → Bool) (sim : ℕ → ℕ → ℚ) (threshold : ℚ) (anchor : Mem)
    (memories : List Mem) (assigned : List ℕ) : List Mem × List ℕ :=
  memories.foldl
    (fun acc other =>
      if other.id ∈ acc.2 then acc
      else if emb other.id = false then acc
      else if threshold ≤ sim anchor.id other.id then (acc.1 ++ [other], acc.2 ++ [other.id])
      else acc)
    ([anchor], assigned ++ [anchor.id])

/-- The similarity values summed by `findSimilarClusters`' average loop: one
per pair `i < j` of cluster members that both have embeddings. -/
def pairSims (emb : ℕ → Bool) (sim : ℕ → ℕ → ℚ) : List Mem → List ℚ
  | [] => []
  | m :: rest =>
    (if emb m.id then (rest.filter (fun o => emb o.id)).map (fun o => sim m.id o.id) else []) ++
      pairSims emb sim rest

/-- `avgSimilarity = pairCount > 0 ? totalSim / pairCount : 0`. -/
def avgPairwiseSim (emb : ℕ → Bool) (sim : ℕ → ℕ → ℚ) (cluster : List Mem) : ℚ :=
  if (pairSims emb sim cluster).length = 0 then 0
  else (pairSims emb sim cluster).sum / (pairSims emb sim cluster).length

/-- `findSimilarClusters(db, memories, threshold)`: greedy single-pass
anchor-based clustering over `memories`; a cluster of fewer than 2 members is
discarded, but its anchor stays assigned.  `Math.floor(Math.log2(n))` is
`Nat.log 2 n` and `Math.max(...importances)` over the non-empty cluster is the
`foldr max 0` of naturals. -/
def findSimilarClustersAux (emb : ℕ → Bool) (sim : ℕ → ℕ → ℚ) (threshold : ℚ)
    (all : List Mem) : List Mem → List ℕ → List ConsolidationCluster
  | [], _ => []
  | m :: rest, assigned =>
    if m.id ∈ assigned then findSimilarClustersAux emb sim threshold all rest assigned
    else if emb m.id = false then findSimilarClustersAux emb sim threshold all rest assigned
    else if 2 ≤ (growCluster emb sim threshold m all assigned).1.length then
      { memories := (growCluster emb sim threshold m all assigned).1,
        averageSimilarity :=
          avgPairwiseSim emb sim (growCluster emb sim threshold m all assigned).1,
        combinedImportance :=
          min 9 ((((growCluster emb sim threshold m all assigned).1.map
              (·.importance)).foldr max 0) +
            Nat.log 2 (growCluster emb sim threshold m all assigned).1.length) } ::
        findSimilarClustersAux emb sim threshold all rest
          (growCluster emb sim threshold m all assigned).2
    else
      findSimilarClustersAux emb sim threshold all rest
        (growCluster emb sim threshold m all assigned).2

def findSimilarClusters (emb : ℕ → Bool) (sim : ℕ → ℕ → ℚ) (threshold : ℚ)
    (memories : List Mem) : List ConsolidationCluster :=
  findSimilarClustersAux emb sim threshold memories memories []

/-- The row update performed by `updateMemoryStatus(db, source.id,
'consolidated', newMemory.id)` inside the consolidation loop. -/
def consolidateMark (newId : ℕ) : Mem → Mem := fun m =>
  { m with status := MStatus.consolidated, parentId := some newId }

/-- `scope = hasGlobal ? 'global' : 'project'` where `hasGlobal` says some
source memory is global. -/
def consolidateScope (cluster : List Mem) : MScope :=
  if cluster.any (fun m => m.scope = MScope.global) then MScope.global else MScope.project

/-- One iteration of the consolidation loop's source rewiring:
`updateMemoryStatus(db, source.id, 'consolidated', newId)` followed by
`createRelationship(db, source.id, newId, 'derived_from',
cluster.averageSimilarity)`. -/
def linkStep (newId : ℕ) (avgSim : ℚ) (now : ℤ) (d : Db) (source : Mem) : Db :=
  (createRelationship (updateMemoryStatus d source.id MStatus.consolidated (some newId))
    source.id newId RelType.derived_from avgSim now).2

/-- The `for (const source of cluster.memories)` loop of `consolidate`. -/
def consolidateLinkSources (cluster : List Mem) (newId : ℕ) (avgSim : ℚ) (now : ℤ)
    (db : Db) : Db :=
  cluster.foldl (linkStep newId avgSim now) db

/-- The per-cluster action of `consolidate`'s live (non-dry-run) path — the
`for (const cluster of clusters)` body: `newLevel = Math.min(3, sourceLevel +
1)` with `sourceLevel = Math.max(...cluster.memories.map(m => m.level))`;
`createMemory` the abstraction (type `lesson`) at the cluster's
`combinedImportance` and computed scope (a project-scoped abstraction keeps
the caller's projectHash), raise its level with the raw `UPDATE`, then mark
each source consolidated under the new id and add a `derived_from` edge at the
cluster's average similarity.  `embedMemory` is the external embedding
collaborator; `quickEncode` and the abstraction text are opaque. -/
def consolidateClusterStep (db : Db) (c : ConsolidationCluster) (projectHash : Option String)
    (now : ℤ) : Db :=
  consolidateLinkSources c.memories db.nextMemoryId c.averageSimilarity now
    (setMemoryLevel
      (createMemory db (consolidateScope c.memories)
        (if consolidateScope c.memories = MScope.project then projectHash else none)
        c.combinedImportance now).2
      db.nextMemoryId (min 3 ((c.memories.map (·.level)).foldr max 0 + 1)))

/-- The live (non-dry-run) pass of `consolidate`: the candidates are the
active memories (`queryMemories(db, { projectHash, limit: 500,
includeArchived: false })`) filtered to `level === 1`; cluster them, then run
the per-cluster action for each cluster found. -/
def consolidateLive (emb : ℕ → Bool) (sim : ℕ → ℕ → ℚ) (threshold : ℚ) (db : Db)
    (candidates : List Mem) (projectHash : Option String) (now : ℤ) : Db :=
  (findSimilarClusters emb sim threshold (candidates.filter (fun m => m.level = 1))).foldl
    (fun d c => consolidateClusterStep d c projectHash now) db

/-- Vocabulary for the theorems below: the map over the memories table that
the consolidation loop's per-source `updateMemoryStatus` calls amount to
(proved in `linkFold_memories`). -/
def markIfSrc (newId : ℕ) (srcIds : List ℕ) : Mem → Mem := fun m =>
  if m.id ∈ srcIds then consolidateMark newId m else m

/-- Vocabulary for the theorems below: the abstraction record as it stands
after `createMemory` and the follow-up level `UPDATE` (proved in
`consolidateClusterStep_memories`). -/
def abstractionMem (db : Db) (c : ConsolidationCluster) (ph : Option String) (now : ℤ) : Mem :=
  ⟨db.nextMemoryId, c.combinedImportance, 5, 0, 0, MStatus.active, none,
    min 3 ((c.memories.map (·.level)).foldr max 0 + 1), consolidateScope c.memories,
    if consolidateScope c.memories = MScope.project then ph else none, now, 0, none⟩

/-- The warning `pruneSafetyStep` pushes for one candidate, if any
(vocabulary for the theorems below). -/
def warnOf (now : ℤ) (m : Mem) : Option Warning :=
  if 8 ≤ m.importance then some (Warning.highImportance m.id m.importance)
  else if daysSinceAccess now m.accessedAt < 7 then
    some (Warning.recentlyAccessed m.id (daysSinceAccess now m.accessedAt))
  else none

/-! ## Helper lemmas -/

theorem key_inj {α β : Type} {f : α → β} {l : List α}
    (h : (l.map f).Nodup) {a b : α} (ha : a ∈ l) (hb : b ∈ l) (hab : f a = f b) : a = b :=
  List.inj_on_of_nodup_map h ha hb hab

theorem find?_map_of_pred_inv {α : Type} (f : α → α) (p : α → Bool)
    (hp : ∀ a, p (f a) = p a) (l : List α) :
    (l.map f).find? p = (l.find? p).map f := by
  induction l with
  | nil => rfl
  | cons a l ih =>
    by_cases hpa : p a = true
    · rw [List.map_cons, List.find?_cons_of_pos _ (by rw [hp]; exact hpa),
        List.find?_cons_of_pos _ hpa, Option.map_some']
    · rw [List.map_cons, List.find?_cons_of_neg _ (by rw [hp]; simpa using hpa),
        List.find?_cons_of_neg _ (by simpa using hpa), ih]

theorem updMemAt_find?_ne (l : List Mem) (id k : ℕ) (g : Mem → Mem)
    (hg : ∀ m, (g m).id = m.id) (hk : ¬ k = id) :
    (updMemAt l id g).find? (fun m => m.id = k) = l.find? (fun m => m.id = k) := by
  unfold updMemAt
  rw [find?_map_of_pred_inv]
  · cases h : l.find? (fun m => m.id = k) with
    | none => rfl
    | some m =>
      have hm : m.id = k := by simpa using List.find?_some h
      simp only [Option.map_some']
      rw [if_neg (by rw [hm]; exact hk)]
  · intro a
    by_cases ha : a.id = id
    · rw [if_pos ha]
      simp [hg]
    · rw [if_neg ha]

theorem updMemAt_find?_self (l : List Mem) (id : ℕ) (g : Mem → Mem)
    (hg : ∀ m, (g m).id = m.id) :
    (updMemAt l id g).find? (fun m => m.id = id) = (l.find? (fun m => m.id = id)).map g := by
  unfold updMemAt
  rw [find?_map_of_pred_inv]
  · cases h : l.find? (fun m => m.id = id) with
    | none => rfl
    | some m =>
      have hm : m.id = id := by simpa using List.find?_some h
      simp only [Option.map_some']
      rw [if_pos hm]
  · intro a
    by_cases ha : a.id = id
    · rw [if_pos ha]
      simp [hg, ha]
    · rw [if_neg ha]

theorem updMemAt_map_id (l : List Mem) (id : ℕ) (g : Mem → Mem)
    (hg : ∀ m, (g m).id = m.id) :
    (updMemAt l id g).map (·.id) = l.map (·.id) := by
  unfold updMemAt
  rw [List.map_map]
  apply List.map_congr_left
  intro a _
  by_cases ha : a.id = id
  · simp only [Function.comp_apply, if_pos ha, hg]
  · simp only [Function.comp_apply, if_neg ha]

theorem mem_updMemAt_of_ne (l : List Mem) (id : ℕ) (g : Mem → Mem) {m : Mem}
    (hm : m ∈ l) (hne : ¬ m.id = id) : m ∈ updMemAt l id g := by
  unfold updMemAt
  have h : (fun x => if x.id = id then g x else x) m = m := if_neg hne
  exact h ▸ List.mem_map_of_mem _ hm

theorem find?_id_of_nodup {l : List Mem} (h : (l.map (·.id)).Nodup) {m : Mem} (hm : m ∈ l) :
    l.find? (fun x => x.id = m.id) = some m := by
  induction l with
  | nil => cases hm
  | cons a l ih =>
    rcases List.mem_cons.1 hm with hma | hml
    · subst hma
      exact List.find?_cons_of_pos _ (by simp)
    · by_cases ha : a.id = m.id
      · exfalso
        have : a.id ∈ l.map (·.id) := ha ▸ List.mem_map_of_mem _ hml
        exact (List.nodup_cons.1 (by simpa using h)).1 this
      · rw [List.find?_cons_of_neg _ (by simpa using ha)]
        exact ih (List.nodup_cons.1 (by simpa using h)).2 hml

theorem pruneSafety_snd (now : ℤ) (l : List Mem) (acc : List Mem × List Warning) :
    (l.foldl (pruneSafetyStep now) acc).2 = acc.2 ++ l.filterMap (warnOf now) := by
  induction l generalizing acc with
  | nil => simp
  | cons a l ih =>
    rw [List.foldl_cons, List.filterMap_cons, ih]
    unfold pruneSafetyStep warnOf
    by_cases h1 : 8 ≤ a.importance
    · rw [if_pos h1, if_pos h1]
      simp
    · rw [if_neg h1, if_neg h1]
      by_cases h2 : daysSinceAccess now a.accessedAt < 7
      · rw [if_pos h2, if_pos h2]
        simp
      · rw [if_neg h2, if_neg h2]

theorem mem_getLowUsefulness {db : Db} {maxU : ℚ} {maxD : ℤ} {limit : ℕ} {now : ℤ} {m : Mem}
    (hm : m ∈ getLowUsefulnessMemories db maxU maxD limit now) :
    m ∈ db.memories ∧ m.status = MStatus.active ∧ m.usefulnessScore < maxU ∧
      m.accessedAt < now - maxD * dayMs ∧ m.importance < 8 := by
  unfold getLowUsefulnessMemories at hm
  have h1 := List.take_subset _ _ hm
  rw [List.mem_insertionSort, List.mem_filter] at h1
  refine ⟨h1.1, ?_⟩
  have := h1.2
  simpa using this

theorem mem_pruneFiltered {db : Db} {input : PruneInput} {ph : Option String} {now : ℤ} {m : Mem}
    (hm : m ∈ pruneFiltered db input ph now) :
    m ∈ db.memories ∧ m.status = MStatus.active ∧
      m.usefulnessScore < input.minUsefulness.getD 2 ∧
      m.accessedAt < now - input.maxAge.getD 90 * dayMs ∧ m.importance < 8 := by
  unfold pruneFiltered at hm
  cases ph with
  | none => exact mem_getLowUsefulness hm
  | some h => exact mem_getLowUsefulness (List.mem_filter.1 hm).1

theorem upd_find_self_some (l : List Mem) (id : ℕ) (g : Mem → Mem) (m1 : Mem)
    (hg : ∀ x, (g x).id = x.id) (hfind : l.find? (fun x => x.id = id) = some m1) :
    (updMemAt l id g).find? (fun x => x.id = id) = some (g m1) := by
  rw [updMemAt_find?_self _ _ _ hg, hfind, Option.map_some']

theorem feedbackCounterBump_find? (ft : FbType) (l : List Mem) (id : ℕ) (m1 : Mem)
    (hfind : l.find? (fun x => x.id = id) = some m1) :
    ∃ m2, (feedbackCounterBump ft l id).find? (fun x => x.id = id) = some m2 ∧
      m2.id = m1.id ∧ m2.importance = m1.importance ∧ m2.accessedAt = m1.accessedAt ∧
      m2.accessCount = m1.accessCount ∧ m2.status = m1.status ∧
      m2.usefulnessScore = m1.usefulnessScore := by
  unfold feedbackCounterBump
  split_ifs with h1 h2
  · exact ⟨_, upd_find_self_some _ _ _ _ (fun x => rfl) hfind, rfl, rfl, rfl, rfl, rfl, rfl⟩
  · exact ⟨_, upd_find_self_some _ _ _ _ (fun x => rfl) hfind, rfl, rfl, rfl, rfl, rfl, rfl⟩
  · exact ⟨m1, hfind, rfl, rfl, rfl, rfl, rfl, rfl⟩

theorem feedbackCounterBump_mem (ft : FbType) (l : List Mem) (id : ℕ) {m : Mem}
    (hm : m ∈ l) (hne : ¬ m.id = id) : m ∈ feedbackCounterBump ft l id := by
  unfold feedbackCounterBump
  split_ifs with h1 h2
  · exact mem_updMemAt_of_ne _ _ _ hm hne
  · exact mem_updMemAt_of_ne _ _ _ hm hne
  · exact hm

theorem recordFeedback_ok (scorer : Scorer) (db : Db) (id : ℕ) (ft : FbType)
    (ctx : Option String) (now : ℤ) (m1 : Mem)
    (hfind : db.memories.find? (fun x => x.id = id) = some m1) :
    ∃ db', recordFeedback scorer db id ft ctx now =
        Except.ok ((⟨db.nextFbId, id, ft, ctx, now⟩ : FbEvent), db') ∧
      db'.feedback = db.feedback ++ [⟨db.nextFbId, id, ft, ctx, now⟩] ∧
      db'.rels = db.rels ∧
      (∃ m2, db'.memories.find? (fun x => x.id = id) = some m2 ∧
        m2.id = m1.id ∧ m2.accessedAt = m1.accessedAt ∧
        m2.accessCount = m1.accessCount ∧ m2.status = m1.status) ∧
      (∀ m' ∈ db.memories, ¬ m'.id = id → m' ∈ db'.memories) := by
  have hany : (db.memories.any (fun x => x.id = id)) = true := by
    rw [List.any_eq_true]
    exact ⟨m1, List.mem_of_find?_eq_some hfind, by simpa using List.find?_some hfind⟩
  obtain ⟨mC, hC, hCid, hCimp, hCacc, hCcnt, hCst, hCus⟩ :=
    feedbackCounterBump_find? ft db.memories id m1 hfind
  unfold recordFeedback updateUsefulnessScoreOp
  rw [if_pos (by simpa using hany)]
  have hC' : (⟨feedbackCounterBump ft db.memories id, db.rels,
      db.feedback ++ [⟨db.nextFbId, id, ft, ctx, now⟩],
      db.nextMemoryId, db.nextRelId, db.nextFbId + 1⟩ : Db).memories.find?
      (fun x => x.id = id) = some mC := hC
  rw [hC']
  refine ⟨_, rfl, rfl, rfl,
    ⟨_, upd_find_self_some _ _ _ _ (fun x => rfl) hC, hCid, hCacc, hCcnt, hCst⟩, ?_⟩
  intro m' hm' hne
  exact mem_updMemAt_of_ne _ _ _ (feedbackCounterBump_mem ft db.memories id hm' hne) hne

/-! ## Claim theorems -/

/-- C1: every scorer invocation computes
`clamp(importance * (0.5 + 0.3*helpfulRatio + 0.15*recencyBoost + 0.05*accessBoost), 1.0, 9.0)`
with `helpfulRatio = (timesHelpful+1)/(timesHelpful+timesUnhelpful+2)`,
`recencyBoost = 0.98^min(daysSinceLastAccess, 365)` and
`accessBoost = ln(accessCount+1)/10`; the result always lies in `[1.0, 9.0]`,
and for `importance=5, timesHelpful=0, timesUnhelpful=0, accessed just now,
accessCount=0` the score is `4.0`. -/
theorem c1_scorer_formula :
    (∀ imp th tu ac d, updateUsefulnessScore imp th tu ac d = specScore imp th tu ac d) ∧
    (∀ imp th tu ac d, 1 ≤ updateUsefulnessScore imp th tu ac d ∧
      updateUsefulnessScore imp th tu ac d ≤ 9) ∧
    updateUsefulnessScore 5 0 0 0 0 = 4 := by
  refine ⟨fun imp th tu ac d => ?_, fun imp th tu ac d => ?_, ?_⟩
  · have h : (imp : ℝ) *
        (0.5 + helpfulRatio th tu * 0.3 + recencyBoost d * 0.15 + accessBoost ac * 0.05) =
        (imp : ℝ) *
        (0.5 + 0.3 * helpfulRatio th tu + 0.15 * recencyBoost d + 0.05 * accessBoost ac) := by
      ring
    rw [updateUsefulnessScore, specScore, clampSpec, h, max_min_distrib_left]
    norm_num
  · exact ⟨le_min (by norm_num) (le_max_left _ _), min_le_left _ _⟩
  · have h1 : helpfulRatio 0 0 = 1 / 2 := by
      unfold helpfulRatio
      norm_num
    have h2 : recencyBoost 0 = 1 := by
      unfold recencyBoost
      rw [min_eq_left (by norm_num : (0 : ℝ) ≤ 365), Real.rpow_zero]
    have h3 : accessBoost 0 = 0 := by
      unfold accessBoost
      norm_num
    rw [updateUsefulnessScore, h1, h2, h3]
    norm_num

/-- C4: when a memory id does not resolve, `recordFeedback` fails with
`NotFound` (the feedback `INSERT` hits the foreign-key constraint before any
write), and the `feedback` tool — which checks `getMemory` first — returns
the store unchanged with a not-found warning, recording no event and
modifying no counter.  Both conclusions hold for every scorer. -/
theorem c4_feedback_not_found (scorer : Scorer) (db : Db) (memoryId : ℕ) (ftype : FbType)
    (context : Option String) (now : ℤ)
    (h : ∀ m ∈ db.memories, ¬ m.id = memoryId) :
    recordFeedback scorer db memoryId ftype context now = Except.error DbErr.notFound ∧
    feedbackTool scorer db [memoryId] ftype context now =
      Except.ok ({ success := true, feedbackRecorded := 0, memoriesUpdated := [],
                   warnings := [Warning.memNotFound memoryId] }, db) := by
  have hany : db.memories.any (fun m => m.id = memoryId) = false := by
    rw [List.any_eq_false]
    intro m hm
    simpa using h m hm
  have hfind : db.memories.find? (fun m => m.id = memoryId) = none := by
    rw [List.find?_eq_none]
    intro m hm
    simpa using h m hm
  constructor
  · unfold recordFeedback
    rw [if_neg (by simp [hany])]
  · unfold feedbackTool
    rw [if_neg (by simp)]
    unfold feedbackLoop getMemory
    rw [hfind]
    rfl

/-- Witness for C4: feedback on the unused id 2 in a one-memory store. -/
theorem c4_witness :
    recordFeedback (fun _ _ _ _ _ _ => 5)
      ⟨[⟨1, 5, 5, 0, 0, MStatus.active, none, 1, MScope.global, none, 0, 0, none⟩],
        [], [], 2, 1, 1⟩ 2 FbType.helpful none 0 = Except.error DbErr.notFound :=
  (c4_feedback_not_found (fun _ _ _ _ _ _ => 5)
    ⟨[⟨1, 5, 5, 0, 0, MStatus.active, none, 1, MScope.global, none, 0, 0, none⟩],
      [], [], 2, 1, 1⟩ 2 FbType.helpful none 0 (by decide)).1

/-- C10: every `getMemory` lookup of an existing memory — whatever its status
— sets its `accessedAt` to the current time and increments `accessCount` by 1
in the store (while returning the pre-update row), leaves other memories
untouched; and one `feedback`-tool call on one existing memory increases its
`accessCount` by 2 through the surrounding before/after reads.  Holds for
every scorer. -/
theorem c10_get_memory_always_bumps (scorer : Scorer) (db : Db) (now : ℤ)
    (hids : (db.memories.map (·.id)).Nodup) (m : Mem) (hm : m ∈ db.memories) :
    (getMemory db m.id now).1 = some m ∧
    ({ m with accessedAt := now, accessCount := m.accessCount + 1 } : Mem) ∈
      (getMemory db m.id now).2.memories ∧
    (∀ m' ∈ db.memories, ¬ m'.id = m.id → m' ∈ (getMemory db m.id now).2.memories) ∧
    (∀ ftype context, ∃ res db',
      feedbackTool scorer db [m.id] ftype context now = Except.ok (res, db') ∧
      ∃ mf, db'.memories.find? (fun x => x.id = m.id) = some mf ∧
        mf.accessedAt = now ∧ mf.accessCount = m.accessCount + 2) := by
  have hfind := find?_id_of_nodup hids hm
  refine ⟨?_, ?_, ?_, ?_⟩
  · unfold getMemory
    rw [hfind]
  · unfold getMemory
    rw [hfind]
    show _ ∈ updMemAt db.memories m.id (accessBump now)
    have he : (fun x => if x.id = m.id then accessBump now x else x) m =
        { m with accessedAt := now, accessCount := m.accessCount + 1 } := by
      simp [accessBump]
    exact he ▸ List.mem_map_of_mem _ hm
  · intro m' hm' hne
    unfold getMemory
    rw [hfind]
    exact mem_updMemAt_of_ne _ _ _ hm' hne
  · intro ftype context
    unfold feedbackTool
    rw [if_neg (by simp)]
    unfold feedbackLoop getMemory
    rw [hfind]
    have hfind1 : (updMemAt db.memories m.id (accessBump now)).find?
        (fun x => x.id = m.id) = some (accessBump now m) :=
      upd_find_self_some _ _ _ _ (fun x => rfl) hfind
    obtain ⟨db2, hrf, hfb, hrels, ⟨m2, hfind2, h2id, h2acc, h2cnt, h2st⟩, hframe⟩ :=
      recordFeedback_ok scorer ⟨updMemAt db.memories m.id (accessBump now), db.rels,
        db.feedback, db.nextMemoryId, db.nextRelId, db.nextFbId⟩ m.id ftype context now
        (accessBump now m) hfind1
    dsimp only
    rw [hrf]
    dsimp only
    rw [hfind2]
    refine ⟨_, _, rfl, accessBump now m2,
      upd_find_self_some _ _ _ _ (fun x => rfl) hfind2, rfl, ?_⟩
    show m2.accessCount + 1 = m.accessCount + 2
    rw [h2cnt]
    rfl

/-- Witness for C10: looking up an archived memory still returns it (and the
theorem's other conclusions apply to the same call). -/
theorem c10_witness :
    (getMemory ⟨[⟨1, 5, 5, 0, 0, MStatus.archived, none, 1, MScope.global, none, 0, 0, none⟩],
        [], [], 2, 1, 1⟩
      (⟨1, 5, 5, 0, 0, MStatus.archived, none, 1, MScope.global, none, 0, 0, none⟩ : Mem).id
      777).1 =
      some ⟨1, 5, 5, 0, 0, MStatus.archived, none, 1, MScope.global, none, 0, 0, none⟩ :=
  (c10_get_memory_always_bumps (fun _ _ _ _ _ _ => 5)
    ⟨[⟨1, 5, 5, 0, 0, MStatus.archived, none, 1, MScope.global, none, 0, 0, none⟩],
      [], [], 2, 1, 1⟩ 777 (by decide)
    ⟨1, 5, 5, 0, 0, MStatus.archived, none, 1, MScope.global, none, 0, 0, none⟩ (by decide)).1

theorem pruneScanWarnings_eq (db : Db) (input : PruneInput) (ph : Option String) (now : ℤ) :
    pruneScanWarnings db input ph now = (pruneFiltered db input ph now).filterMap (warnOf now) := by
  unfold pruneScanWarnings
  rw [pruneSafety_snd]
  simp

theorem mem_prune_warnings {db : Db} {input : PruneInput} {ph : Option String} {now : ℤ}
    {w : Warning} (hw : w ∈ pruneScanWarnings db input ph now) :
    w ∈ (prune db input ph now).1.warnings := by
  unfold prune
  split_ifs with h1 h2 h3 h4
  · exact absurd hw (by simp [List.isEmpty_iff.1 h2])
  · exact hw
  · exact hw
  · exact hw
  · exact hw

theorem prune_warnings_sub {db : Db} {input : PruneInput} {ph : Option String} {now : ℤ}
    {w : Warning} (hw : w ∈ (prune db input ph now).1.warnings) :
    w = Warning.noneEligible ∨ w ∈ pruneScanWarnings db input ph now := by
  unfold prune at hw
  split_ifs at hw with h1 h2 h3 h4
  · left
    simpa using hw
  · right
    exact hw
  · right
    exact hw
  · right
    exact hw
  · right
    exact hw

/-- C5 counterexample: a memory with `importance = 8`, `usefulnessScore = 1.5`
and last access 120 days ago meets the score/age selection criteria
(`minUsefulness = 2`, `maxAge = 90`), is excluded from pruning — but the
returned warnings are just the generic `No memories eligible for pruning.`
message: no warning names the excluded id.  The `importance >= 8` warning
branch of `prune` is dead code, because `getLowUsefulnessMemories` already
filters `importance < 8` in SQL. -/
theorem c5_counterexample :
    (⟨1, 8, 1, 0, 0, MStatus.active, none, 1, MScope.global, none, 0, 0, none⟩ : Mem).usefulnessScore < 2 ∧
    (⟨1, 8, 1, 0, 0, MStatus.active, none, 1, MScope.global, none, 0, 0, none⟩ : Mem).accessedAt <
      120 * dayMs - 90 * dayMs ∧
    (prune ⟨[⟨1, 8, 1, 0, 0, MStatus.active, none, 1, MScope.global, none, 0, 0, none⟩],
        [], [], 2, 1, 1⟩ ⟨some 2, some 90, some false, some false⟩ none
      (120 * dayMs)).1.prunedIds = [] ∧
    (prune ⟨[⟨1, 8, 1, 0, 0, MStatus.active, none, 1, MScope.global, none, 0, 0, none⟩],
        [], [], 2, 1, 1⟩ ⟨some 2, some 90, some false, some false⟩ none
      (120 * dayMs)).1.warnings = [Warning.noneEligible] := by
  decide

/-- C5 amended: the selection query itself excludes `importance ≥ 8` memories,
so no high-importance warning is ever emitted (the exclusion is silent); only
the recency safety exclusion (a candidate accessed within the last 7 days)
appears in the warnings, naming the excluded memory's id. -/
theorem c5_amended_warnings :
    (∀ (db : Db) (input : PruneInput) (ph : Option String) (now : ℤ) (m : Mem),
      m ∈ pruneFiltered db input ph now → m.importance < 8) ∧
    (∀ (db : Db) (input : PruneInput) (ph : Option String) (now : ℤ) (m : Mem),
      m ∈ pruneFiltered db input ph now → daysSinceAccess now m.accessedAt < 7 →
      Warning.recentlyAccessed m.id (daysSinceAccess now m.accessedAt) ∈
        (prune db input ph now).1.warnings) ∧
    (∀ (db : Db) (input : PruneInput) (ph : Option String) (now : ℤ) (i imp : ℕ),
      Warning.highImportance i imp ∉ (prune db input ph now).1.warnings) := by
  have hlow : ∀ (db : Db) (input : PruneInput) (ph : Option String) (now : ℤ) (m : Mem),
      m ∈ pruneFiltered db input ph now → m.importance < 8 :=
    fun db input ph now m hm => (mem_pruneFiltered hm).2.2.2.2
  refine ⟨hlow, ?_, ?_⟩
  · intro db input ph now m hm hdays
    apply mem_prune_warnings
    rw [pruneScanWarnings_eq]
    refine List.mem_filterMap.2 ⟨m, hm, ?_⟩
    unfold warnOf
    have hlt := hlow db input ph now m hm
    rw [if_neg (by omega), if_pos hdays]
  · intro db input ph now i imp hw
    rcases prune_warnings_sub hw with h | h
    · cases h
    · rw [pruneScanWarnings_eq] at h
      obtain ⟨a, ha, hwa⟩ := List.mem_filterMap.1 h
      have hlt := hlow db input ph now a ha
      unfold warnOf at hwa
      split_ifs at hwa with h1 h2
      · omega
      · cases hwa

/-- Witness for C5's amended claim: with `maxAge = 1`, a low-score memory last
accessed 3 days ago is a candidate, gets excluded by the 7-day rule, and the
warning naming id 1 and 3 days is in the prune result. -/
theorem c5_amended_witness :
    Warning.recentlyAccessed 1 3 ∈
      (prune ⟨[⟨1, 5, 1, 0, 0, MStatus.active, none, 1, MScope.global, none, 7 * dayMs, 0, none⟩],
          [], [], 2, 1, 1⟩ ⟨some 2, some 1, some false, some false⟩ none
        (10 * dayMs)).1.warnings := by
  have h := (c5_amended_warnings.2.1)
    ⟨[⟨1, 5, 1, 0, 0, MStatus.active, none, 1, MScope.global, none, 7 * dayMs, 0, none⟩],
      [], [], 2, 1, 1⟩ ⟨some 2, some 1, some false, some false⟩ none (10 * dayMs)
    ⟨1, 5, 1, 0, 0, MStatus.active, none, 1, MScope.global, none, 7 * dayMs, 0, none⟩
    (by decide) (by decide)
  exact h

theorem archiveFold_feedback (l : List Mem) (db : Db) :
    (l.foldl (fun d s => updateMemoryStatus d s.id MStatus.archived none) db).feedback =
      db.feedback := by
  induction l generalizing db with
  | nil => rfl
  | cons a l ih =>
    rw [List.foldl_cons, ih]
    rfl

theorem deleteFold_feedback_mem {l : List Mem} {db : Db} {e : FbEvent}
    (he : e ∈ db.feedback) (h : ∀ s ∈ l, ¬ s.id = e.memoryId) :
    e ∈ (l.foldl (fun d s => deleteMemory d s.id) db).feedback := by
  induction l generalizing db with
  | nil => simpa using he
  | cons a l ih =>
    rw [List.foldl_cons]
    apply ih
    · unfold deleteMemory
      refine List.mem_filter.2 ⟨he, ?_⟩
      simpa using fun hc => h a (List.mem_cons_self a l) hc.symm
    · exact fun s hs => h s (List.mem_cons_of_mem a hs)

theorem deleteFold_feedback_sub {l : List Mem} {db : Db} {e : FbEvent}
    (he : e ∈ (l.foldl (fun d s => deleteMemory d s.id) db).feedback) : e ∈ db.feedback := by
  induction l generalizing db with
  | nil => simpa using he
  | cons a l ih =>
    rw [List.foldl_cons] at he
    have h1 := ih he
    unfold deleteMemory at h1
    exact (List.mem_filter.1 h1).1

/-- C6 counterexample: a store with one low-value memory and one recorded
feedback event; a permanent prune selects the memory, and the `ON DELETE
CASCADE` clause of `memory_feedback` deletes the event along with the row. -/
theorem c6_counterexample :
    (prune ⟨[⟨1, 5, 1, 0, 0, MStatus.active, none, 1, MScope.global, none, 0, 0, none⟩],
        [], [⟨1, 1, FbType.helpful, none, 0⟩], 2, 1, 2⟩
      ⟨some 2, some 90, some false, some true⟩ none (200 * dayMs)).1.prunedIds = [1] ∧
    (prune ⟨[⟨1, 5, 1, 0, 0, MStatus.active, none, 1, MScope.global, none, 0, 0, none⟩],
        [], [⟨1, 1, FbType.helpful, none, 0⟩], 2, 1, 2⟩
      ⟨some 2, some 90, some false, some true⟩ none (200 * dayMs)).2.feedback = [] := by
  decide

/-- C6 amended: feedback events are never mutated — `recordFeedback` only
appends, archival pruning leaves the log untouched, and every event in a
prune result's log was there before; but permanent pruning deletes the events
of each deleted memory through the `memory_feedback` foreign-key cascade, so
an event survives a prune exactly when its memory is not permanently
deleted. -/
theorem c6_amended_feedback_append_only :
    (∀ (scorer : Scorer) (db : Db) (id : ℕ) (ft : FbType) (ctx : Option String) (now : ℤ)
      (m1 : Mem), db.memories.find? (fun x => x.id = id) = some m1 →
      ∃ db', recordFeedback scorer db id ft ctx now =
          Except.ok ((⟨db.nextFbId, id, ft, ctx, now⟩ : FbEvent), db') ∧
        db'.feedback = db.feedback ++ [⟨db.nextFbId, id, ft, ctx, now⟩]) ∧
    (∀ (db : Db) (input : PruneInput) (ph : Option String) (now : ℤ),
      input.permanent.getD false = false →
      (prune db input ph now).2.feedback = db.feedback) ∧
    (∀ (db : Db) (input : PruneInput) (ph : Option String) (now : ℤ) (e : FbEvent),
      e ∈ db.feedback → e.memoryId ∉ (prune db input ph now).1.prunedIds →
      e ∈ (prune db input ph now).2.feedback) ∧
    (∀ (db : Db) (input : PruneInput) (ph : Option String) (now : ℤ) (e : FbEvent),
      e ∈ (prune db input ph now).2.feedback → e ∈ db.feedback) := by
  refine ⟨?_, ?_, ?_, ?_⟩
  · intro scorer db id ft ctx now m1 hfind
    obtain ⟨db', hrf, hfb, -⟩ := recordFeedback_ok scorer db id ft ctx now m1 hfind
    exact ⟨db', hrf, hfb⟩
  · intro db input ph now hperm
    unfold prune
    split_ifs with h1 h2 h3 h4
    · rfl
    · rfl
    · rfl
    · rw [hperm] at h4
      cases h4
    · exact archiveFold_feedback _ _
  · intro db input ph now e he hni
    unfold prune at hni ⊢
    split_ifs at hni ⊢ with h1 h2 h3 h4
    · exact he
    · exact he
    · exact he
    · refine deleteFold_feedback_mem he ?_
      intro s hs hc
      exact hni (by simpa using List.mem_map.2 ⟨s, hs, hc⟩)
    · rw [archiveFold_feedback]
      exact he
  · intro db input ph now e he
    unfold prune at he
    split_ifs at he with h1 h2 h3 h4
    · exact he
    · exact he
    · exact he
    · exact deleteFold_feedback_sub he
    · rw [archiveFold_feedback] at he
      exact he

/-- Witness for C6's amended claim: a non-permanent prune that archives a
memory leaves the feedback log exactly as it was. -/
theorem c6_amended_witness :
    (prune ⟨[⟨1, 5, 1, 0, 0, MStatus.active, none, 1, MScope.global, none, 0, 0, none⟩],
        [], [⟨1, 1, FbType.helpful, none, 0⟩], 2, 1, 2⟩
      ⟨some 2, some 90, some false, some false⟩ none (200 * dayMs)).2.feedback =
      [⟨1, 1, FbType.helpful, none, 0⟩] :=
  c6_amended_feedback_append_only.2.1
    ⟨[⟨1, 5, 1, 0, 0, MStatus.active, none, 1, MScope.global, none, 0, 0, none⟩],
      [], [⟨1, 1, FbType.helpful, none, 0⟩], 2, 1, 2⟩
    ⟨some 2, some 90, some false, some false⟩ none (200 * dayMs) (by decide)

theorem decayRels_eq_filterMap (f fl : ℚ) (rels : List Rel) :
    decayRels f fl rels = rels.filterMap (decayStep f fl) := by
  induction rels with
  | nil => rfl
  | cons a l ih =>
    unfold decayRels at ih ⊢
    rw [List.map_cons, List.filter_cons, List.filterMap_cons]
    unfold decayStep
    by_cases h1 : fl < a.strength
    · by_cases h2 : a.strength * f < fl
      · rw [if_pos h1, if_pos h1, if_pos h2]
        rw [if_neg (by simpa using not_not.2 h2)]
        exact ih
      · rw [if_pos h1, if_pos h1, if_neg h2]
        rw [if_pos (by simpa using h2)]
        rw [ih]
        rfl
    · by_cases h3 : a.strength < fl
      · rw [if_neg h1, if_neg h1, if_pos h3, if_neg (by simpa using not_not.2 h3)]
        exact ih
      · rw [if_neg h1, if_neg h1, if_neg h3, if_pos (by simpa using h3)]
        rw [ih]
        rfl

/-- C7 counterexample: with edge strength 1, `factor = floor = 1/2`, a first
pass leaves the edge at exactly the floor, where the `strength > floor` guard
stops multiplying it — so two passes keep one edge at `1/2`, while a single
pass with `factor² = 1/4` deletes it: the claimed equivalence fails on the
edge set itself, and an edge sitting at the floor is never multiplied. -/
theorem c7_counterexample :
    ((decayRelationshipStrengths
        (decayRelationshipStrengths ⟨[], [⟨1, 1, 2, RelType.similar, 1, 0⟩], [], 1, 2, 1⟩
          ((1 : ℚ) / 2) ((1 : ℚ) / 2)).2 ((1 : ℚ) / 2) ((1 : ℚ) / 2)).2.rels.map (·.strength))
      = [(1 : ℚ) / 2] ∧
    ((decayRelationshipStrengths ⟨[], [⟨1, 1, 2, RelType.similar, 1, 0⟩], [], 1, 2, 1⟩
        ((1 : ℚ) / 2 * ((1 : ℚ) / 2)) ((1 : ℚ) / 2)).2.rels.map (·.strength)) = [] ∧
    ((decayRelationshipStrengths ⟨[], [⟨1, 1, 2, RelType.similar, (1 : ℚ) / 2, 0⟩], [], 1, 2, 1⟩
        ((1 : ℚ) / 2) ((1 : ℚ) / 2)).2.rels.map (·.strength)) = [(1 : ℚ) / 2] := by
  refine ⟨?_, ?_, ?_⟩ <;> norm_num [decayRelationshipStrengths, decayRels]

/-- C7 amended: `decayRelationshipStrengths` multiplies by `factor` only the
edges with `strength > floor` (an edge sitting at or below the floor passes
unmultiplied, surviving iff its strength equals the floor), then deletes
edges whose strength is strictly below the floor; consequently every
surviving edge has `strength ≥ floor` (hence non-negative whenever
`floor ≥ 0`, for any factor), and — provided no edge strength lands exactly
on the floor after one multiplication — applying the pass twice with a
non-negative factor `f` equals applying it once with `f²`. -/
theorem c7_amended_decay :
    (∀ (db : Db) (f fl : ℚ), 0 ≤ fl →
      ∀ r ∈ (decayRelationshipStrengths db f fl).2.rels, fl ≤ r.strength ∧ 0 ≤ r.strength) ∧
    (∀ (db : Db) (f fl : ℚ) (r : Rel), r ∈ db.rels → r.strength ≤ fl →
      (r ∈ (decayRelationshipStrengths db f fl).2.rels ↔ fl ≤ r.strength)) ∧
    (∀ (db : Db) (f fl : ℚ), 0 ≤ f → 0 ≤ fl →
      (∀ r ∈ db.rels, fl < r.strength → ¬ r.strength * f = fl) →
      (decayRelationshipStrengths (decayRelationshipStrengths db f fl).2 f fl).2 =
        (decayRelationshipStrengths db (f * f) fl).2) := by
  refine ⟨?_, ?_, ?_⟩
  · intro db f fl hfl r hr
    unfold decayRelationshipStrengths at hr
    dsimp only at hr
    unfold decayRels at hr
    have h2 := List.mem_filter.1 hr
    have h3 : ¬ r.strength < fl := by simpa using h2.2
    exact ⟨not_lt.1 h3, le_trans hfl (not_lt.1 h3)⟩
  · intro db f fl r hr hle
    unfold decayRelationshipStrengths
    dsimp only
    unfold decayRels
    constructor
    · intro hf
      have h2 := List.mem_filter.1 hf
      simpa using h2.2
    · intro hge
      refine List.mem_filter.2 ⟨?_, by simpa using not_lt.2 hge⟩
      have he : (fun x => if fl < x.strength then { x with strength := x.strength * f } else x) r
          = r := if_neg (not_lt.2 hle)
      exact he ▸ List.mem_map_of_mem _ hr
  · intro db f fl hf hfl hb
    have hl : decayRels f fl (decayRels f fl db.rels) = decayRels (f * f) fl db.rels := by
      rw [decayRels_eq_filterMap, decayRels_eq_filterMap, List.filterMap_filterMap,
        decayRels_eq_filterMap]
      apply List.filterMap_congr
      intro r hr
      unfold decayStep
      by_cases h1 : fl < r.strength
      · have hs : 0 < r.strength := lt_of_le_of_lt hfl h1
        by_cases h2 : r.strength * f < fl
        · rw [if_pos h1, if_pos h2, if_pos h1]
          have hflt : f < 1 := by nlinarith
          have h4 : r.strength * (f * f) < fl := by nlinarith
          rw [if_pos h4]
          rfl
        · have h3 : fl < r.strength * f := lt_of_le_of_ne (not_lt.1 h2) (Ne.symm (hb r hr h1))
          rw [if_pos h1, if_neg h2, if_pos h1]
          dsimp only [Option.bind]
          rw [if_pos h3]
          rw [show r.strength * f * f = r.strength * (f * f) from mul_assoc _ _ _]
      · rw [if_neg h1]
        by_cases h3 : r.strength < fl
        · rw [if_pos h3, if_neg h1]
          rfl
        · rw [if_neg h3, if_neg h1]
          dsimp only [Option.bind]
          rw [if_neg h1, if_neg h3]
    unfold decayRelationshipStrengths
    dsimp only
    rw [hl]

/-- Witness for C7's amended claim: factor `1/2`, floor `1/4`, one edge of
strength `2`: two passes and one squared pass agree (strength `1/2`), and the
surviving strength is at least the floor. -/
theorem c7_amended_witness :
    (decayRelationshipStrengths
      (decayRelationshipStrengths ⟨[], [⟨1, 1, 2, RelType.similar, 2, 0⟩], [], 1, 2, 1⟩
        ((1 : ℚ) / 2) ((1 : ℚ) / 4)).2 ((1 : ℚ) / 2) ((1 : ℚ) / 4)).2 =
    (decayRelationshipStrengths ⟨[], [⟨1, 1, 2, RelType.similar, 2, 0⟩], [], 1, 2, 1⟩
      ((1 : ℚ) / 2 * ((1 : ℚ) / 2)) ((1 : ℚ) / 4)).2 :=
  c7_amended_decay.2.2 ⟨[], [⟨1, 1, 2, RelType.similar, 2, 0⟩], [], 1, 2, 1⟩
    ((1 : ℚ) / 2) ((1 : ℚ) / 4) (by norm_num) (by norm_num)
    (by
      intro r hr hlt heq
      rw [List.mem_singleton] at hr
      subst hr
      norm_num at heq)

theorem updRelAt_map_id (l : List Rel) (id : ℕ) (g : Rel → Rel)
    (hg : ∀ r, (g r).id = r.id) :
    (updRelAt l id g).map (·.id) = l.map (·.id) := by
  unfold updRelAt
  rw [List.map_map]
  apply List.map_congr_left
  intro a _
  by_cases ha : a.id = id
  · simp only [Function.comp_apply, if_pos ha, hg]
  · simp only [Function.comp_apply, if_neg ha]

theorem upsertSimilar_lookup_self (db : Db) (p : ℕ × ℕ) (inc : ℚ) (now : ℤ) :
    ∃ r', simLookup (upsertSimilar db p inc now).rels p.1 p.2 = some r' ∧
      r'.strength = upsertedStrength db.rels p inc := by
  unfold upsertSimilar upsertedStrength
  cases hlk : simLookup db.rels p.1 p.2 with
  | some e =>
      refine ⟨{ e with strength := min 10 (e.strength + inc) }, ?_, rfl⟩
      show simLookup (updRelAt db.rels e.id _) p.1 p.2 = _
      unfold simLookup updRelAt
      rw [find?_map_of_pred_inv]
      · unfold simLookup at hlk
        rw [hlk, Option.map_some', if_pos rfl]
      · intro a
        by_cases ha : a.id = e.id
        · rw [if_pos ha]
        · rw [if_neg ha]
  | none =>
      refine ⟨⟨db.nextRelId, p.1, p.2, RelType.similar, inc, now⟩, ?_, rfl⟩
      show simLookup (db.rels ++ [_]) p.1 p.2 = _
      unfold simLookup at hlk ⊢
      rw [List.find?_append, hlk]
      simp

theorem upsertSimilar_lookup_other (db : Db) (p q : ℕ × ℕ) (inc : ℚ) (now : ℤ)
    (hwf : RelsWF db) (hne : ¬ q = p) :
    simLookup (upsertSimilar db p inc now).rels q.1 q.2 = simLookup db.rels q.1 q.2 := by
  unfold upsertSimilar
  cases hlk : simLookup db.rels p.1 p.2 with
  | some e =>
      have he : e.sourceId = p.1 ∧ e.targetId = p.2 ∧ e.rtype = RelType.similar := by
        simpa using List.find?_some hlk
      have hemem : e ∈ db.rels := List.mem_of_find?_eq_some hlk
      show simLookup (updRelAt db.rels e.id _) q.1 q.2 = _
      unfold simLookup updRelAt
      rw [find?_map_of_pred_inv]
      · cases hlq : db.rels.find?
          (fun r => r.sourceId = q.1 ∧ r.targetId = q.2 ∧ r.rtype = RelType.similar) with
        | none => rfl
        | some e' =>
            have he' : e'.sourceId = q.1 ∧ e'.targetId = q.2 ∧ e'.rtype = RelType.similar := by
              simpa using List.find?_some hlq
            have he'mem : e' ∈ db.rels := List.mem_of_find?_eq_some hlq
            rw [Option.map_some']
            have hid : ¬ e'.id = e.id := by
              intro hid
              have hee : e' = e := key_inj hwf.1 he'mem hemem hid
              apply hne
              have h1 : q.1 = p.1 := by rw [← he'.1, hee, he.1]
              have h2 : q.2 = p.2 := by rw [← he'.2.1, hee, he.2.1]
              exact Prod.ext h1 h2
            rw [if_neg hid]
      · intro a
        by_cases ha : a.id = e.id
        · rw [if_pos ha]
        · rw [if_neg ha]
  | none =>
      show simLookup (db.rels ++ [_]) q.1 q.2 = _
      unfold simLookup
      rw [List.find?_append]
      cases hlq : db.rels.find?
          (fun r => r.sourceId = q.1 ∧ r.targetId = q.2 ∧ r.rtype = RelType.similar) with
      | some e' => rfl
      | none =>
          have hnone : List.find?
              (fun r => r.sourceId = q.1 ∧ r.targetId = q.2 ∧ r.rtype = RelType.similar)
              [(⟨db.nextRelId, p.1, p.2, RelType.similar, inc, now⟩ : Rel)] = none := by
            rw [List.find?_eq_none]
            intro x hx
            rw [List.mem_singleton] at hx
            subst hx
            simp only [decide_eq_true_eq]
            rintro ⟨h1, h2, -⟩
            exact hne (Prod.ext h1.symm h2.symm)
          rw [hnone]
          rfl

theorem upsertSimilar_wf (db : Db) (p : ℕ × ℕ) (inc : ℚ) (now : ℤ) (hwf : RelsWF db) :
    RelsWF (upsertSimilar db p inc now) := by
  obtain ⟨hnd, hlt⟩ := hwf
  unfold upsertSimilar
  cases hlk : simLookup db.rels p.1 p.2 with
  | some e =>
      refine ⟨?_, ?_⟩
      · show ((updRelAt db.rels e.id _).map (·.id)).Nodup
        have h := updRelAt_map_id db.rels e.id
          (fun r => { r with strength := min 10 (e.strength + inc) }) (fun r => rfl)
        rw [h]
        exact hnd
      · show ∀ r ∈ updRelAt db.rels e.id _, r.id < db.nextRelId
        intro r hr
        obtain ⟨a, ha, rfl⟩ := List.mem_map.1 hr
        have hid : ((fun x => if x.id = e.id
            then { x with strength := min 10 (e.strength + inc) } else x) a).id = a.id := by
          dsimp only
          by_cases hae : a.id = e.id
          · rw [if_pos hae]
          · rw [if_neg hae]
        rw [hid]
        exact hlt a ha
  | none =>
      constructor
      · show ((db.rels ++
          [(⟨db.nextRelId, p.1, p.2, RelType.similar, inc, now⟩ : Rel)]).map (·.id)).Nodup
        rw [List.map_append]
        refine List.nodup_append.2 ⟨hnd, by simp, ?_⟩
        intro x hx hx'
        obtain ⟨r, hr, rfl⟩ := List.mem_map.1 hx
        have h1 := hlt r hr
        have h2 : r.id = db.nextRelId := by simpa using hx'
        omega
      · intro r hr
        rcases List.mem_append.1 hr with h | h
        · exact Nat.lt_succ_of_lt (hlt r h)
        · have : r = ⟨db.nextRelId, p.1, p.2, RelType.similar, inc, now⟩ := by simpa using h
          rw [this]
          exact Nat.lt_succ_self _

theorem foldUpsert_wf {ps : List (ℕ × ℕ)} {db : Db} {inc : ℚ} {now : ℤ} (hwf : RelsWF db) :
    RelsWF (ps.foldl (fun d r => upsertSimilar d r inc now) db) := by
  induction ps generalizing db with
  | nil => exact hwf
  | cons a ps ih =>
    rw [List.foldl_cons]
    exact ih (upsertSimilar_wf db a inc now hwf)

theorem foldUpsert_frame {ps : List (ℕ × ℕ)} {db : Db} {inc : ℚ} {now : ℤ}
    (hwf : RelsWF db) {q : ℕ × ℕ} (hq : q ∉ ps) :
    simLookup ((ps.foldl (fun d r => upsertSimilar d r inc now) db).rels) q.1 q.2 =
      simLookup db.rels q.1 q.2 := by
  induction ps generalizing db with
  | nil => rfl
  | cons a ps ih =>
    rw [List.foldl_cons]
    rw [ih (upsertSimilar_wf db a inc now hwf) (fun h => hq (List.mem_cons_of_mem _ h))]
    exact upsertSimilar_lookup_other db a q inc now hwf
      (fun h => hq (h ▸ List.mem_cons_self _ _))

theorem foldUpsert_lookup {ps : List (ℕ × ℕ)} {db : Db} {inc : ℚ} {now : ℤ}
    (hwf : RelsWF db) (hnd : ps.Nodup) {p : ℕ × ℕ} (hp : p ∈ ps) :
    ∃ r', simLookup ((ps.foldl (fun d r => upsertSimilar d r inc now) db).rels) p.1 p.2 =
        some r' ∧ r'.strength = upsertedStrength db.rels p inc := by
  induction ps generalizing db with
  | nil => cases hp
  | cons a ps ih =>
    rw [List.foldl_cons]
    rcases List.mem_cons.1 hp with rfl | hp'
    · obtain ⟨r', hr', hs⟩ := upsertSimilar_lookup_self db p inc now
      refine ⟨r', ?_, hs⟩
      rw [foldUpsert_frame (upsertSimilar_wf db p inc now hwf) (List.nodup_cons.1 hnd).1]
      exact hr'
    · have hne : ¬ p = a := fun h => (List.nodup_cons.1 hnd).1 (h ▸ hp')
      obtain ⟨r', hr', hs⟩ := ih (upsertSimilar_wf db a inc now hwf)
        (List.nodup_cons.1 hnd).2 hp'
      refine ⟨r', hr', ?_⟩
      rw [hs]
      unfold upsertedStrength
      rw [upsertSimilar_lookup_other db a p inc now hwf hne]

theorem mem_canonPairs {ids : List ℕ} (hnd : ids.Nodup) {a b : ℕ} :
    (a, b) ∈ canonPairs ids ↔ a ∈ ids ∧ b ∈ ids ∧ a < b := by
  induction ids with
  | nil => simp [canonPairs]
  | cons x xs ih =>
    have hx : x ∉ xs := (List.nodup_cons.1 hnd).1
    have hnd' := (List.nodup_cons.1 hnd).2
    unfold canonPairs
    rw [List.mem_append, List.mem_cons, List.mem_cons, ih hnd']
    constructor
    · rintro (hmap | ⟨ha, hb, hab⟩)
      · obtain ⟨y, hy, hc⟩ := List.mem_map.1 hmap
        have hxy : ¬ x = y := fun h => hx (h ▸ hy)
        unfold canonPair at hc
        by_cases hlt : x < y
        · rw [if_pos hlt] at hc
          obtain ⟨rfl, rfl⟩ := Prod.mk.injEq .. ▸ hc
          exact ⟨Or.inl rfl, Or.inr hy, hlt⟩
        · rw [if_neg hlt] at hc
          obtain ⟨rfl, rfl⟩ := Prod.mk.injEq .. ▸ hc
          exact ⟨Or.inr hy, Or.inl rfl, by omega⟩
      · exact ⟨Or.inr ha, Or.inr hb, hab⟩
    · rintro ⟨ha | ha, hb | hb, hab⟩
      · omega
      · subst ha
        refine Or.inl (List.mem_map.2 ⟨b, hb, ?_⟩)
        unfold canonPair
        rw [if_pos hab]
      · subst hb
        refine Or.inl (List.mem_map.2 ⟨a, ha, ?_⟩)
        unfold canonPair
        rw [if_neg (by omega)]
      · exact Or.inr ⟨ha, hb, hab⟩

theorem canonPairs_nodup {ids : List ℕ} (hnd : ids.Nodup) : (canonPairs ids).Nodup := by
  induction ids with
  | nil => simp [canonPairs]
  | cons x xs ih =>
    have hx : x ∉ xs := (List.nodup_cons.1 hnd).1
    have hnd' := (List.nodup_cons.1 hnd).2
    unfold canonPairs
    refine List.nodup_append.2 ⟨?_, ih hnd', ?_⟩
    · refine List.Nodup.map_on ?_ hnd'
      intro y1 h1 y2 h2 hc
      have hx1 : ¬ x = y1 := fun h => hx (h ▸ h1)
      have hx2 : ¬ x = y2 := fun h => hx (h ▸ h2)
      unfold canonPair at hc
      by_cases ha : x < y1 <;> by_cases hb : x < y2
      · rw [if_pos ha, if_pos hb] at hc
        exact (Prod.mk.injEq .. ▸ hc).2
      · rw [if_pos ha, if_neg hb] at hc
        obtain ⟨h3, h4⟩ := Prod.mk.injEq .. ▸ hc
        omega
      · rw [if_neg ha, if_pos hb] at hc
        obtain ⟨h3, h4⟩ := Prod.mk.injEq .. ▸ hc
        omega
      · rw [if_neg ha, if_neg hb] at hc
        exact (Prod.mk.injEq .. ▸ hc).1
    · intro p hp hp'
      obtain ⟨y, hy, rfl⟩ := List.mem_map.1 hp
      have hcc : canonPair x y = (x, y) ∨ canonPair x y = (y, x) := by
        unfold canonPair
        by_cases hlt : x < y
        · exact Or.inl (if_pos hlt)
        · exact Or.inr (if_neg hlt)
      rcases hcc with h | h
      · rw [h] at hp'
        exact hx ((mem_canonPairs hnd').1 hp').1
      · rw [h] at hp'
        exact hx ((mem_canonPairs hnd').1 hp').2.1

/-- C9: for every list of at least two distinct (existing) memory ids,
`recordCoAccess` strengthens or creates the canonical `(min, max)` `similar`
edge of exactly each unordered pair — adding `incrementStrength` capped at 10
to an existing edge, creating a new edge at `incrementStrength` — and touches
no other pair; `recordCoAccess([1,2,3], 0.1)` on an empty edge table creates
exactly the edges (1,2), (1,3), (2,3), each at 0.1. -/
theorem c9_record_co_access :
    (∀ (db : Db) (ids : List ℕ) (inc : ℚ) (now : ℤ) (a b : ℕ),
      RelsWF db → ids.Nodup → 2 ≤ ids.length → a ∈ ids → b ∈ ids → a < b →
      ∃ r', simLookup (recordCoAccess db ids inc now).rels a b = some r' ∧
        r'.strength = upsertedStrength db.rels (a, b) inc) ∧
    (∀ (db : Db) (ids : List ℕ) (inc : ℚ) (now : ℤ) (s t : ℕ),
      RelsWF db → ids.Nodup → ¬ (s ∈ ids ∧ t ∈ ids ∧ s < t) →
      simLookup (recordCoAccess db ids inc now).rels s t = simLookup db.rels s t) ∧
    ((recordCoAccess ⟨[], [], [], 1, 1, 1⟩ [1, 2, 3] (mkRat 1 10) 0).rels.map
        (fun r => (r.sourceId, r.targetId, r.strength)) =
      [(1, 2, mkRat 1 10), (1, 3, mkRat 1 10), (2, 3, mkRat 1 10)]) := by
  refine ⟨?_, ?_, ?_⟩
  · intro db ids inc now a b hwf hnd hlen ha hb hab
    unfold recordCoAccess
    rw [if_neg (by omega)]
    exact foldUpsert_lookup hwf (canonPairs_nodup hnd) ((mem_canonPairs hnd).2 ⟨ha, hb, hab⟩)
  · intro db ids inc now s t hwf hnd hno
    unfold recordCoAccess
    by_cases hlen : ids.length < 2
    · rw [if_pos hlen]
    · rw [if_neg hlen]
      exact foldUpsert_frame hwf (fun hmem => hno ((mem_canonPairs hnd).1 hmem))
  · decide

/-- Witness for C9: `recordCoAccess` on ids `[1, 2]` over an edge table that
already holds the canonical (1,2) edge at strength 1 updates it to `1 + 1/10`
capped at 10. -/
theorem c9_witness :
    ∃ r', simLookup (recordCoAccess ⟨[], [⟨1, 1, 2, RelType.similar, 1, 0⟩], [], 1, 2, 1⟩
        [1, 2] (mkRat 1 10) 0).rels 1 2 = some r' ∧
      r'.strength = upsertedStrength [⟨1, 1, 2, RelType.similar, 1, 0⟩] (1, 2) (mkRat 1 10) :=
  c9_record_co_access.1 ⟨[], [⟨1, 1, 2, RelType.similar, 1, 0⟩], [], 1, 2, 1⟩
    [1, 2] (mkRat 1 10) 0 1 2 ⟨by decide, by decide⟩ (by decide) (by decide)
    (by decide) (by decide) (by decide)

theorem consolidateMark_id (newId : ℕ) (m : Mem) : (consolidateMark newId m).id = m.id := rfl

theorem consolidateMark_mark (newId : ℕ) (m : Mem) :
    consolidateMark newId (consolidateMark newId m) = consolidateMark newId m := rfl

theorem markIfSrc_nil (newId : ℕ) : markIfSrc newId [] = id := by
  funext m
  show markIfSrc newId [] m = m
  unfold markIfSrc
  rw [if_neg (List.not_mem_nil _)]

theorem markIfSrc_cons (newId : ℕ) (aid : ℕ) (ids : List ℕ) (m : Mem) :
    markIfSrc newId ids (if m.id = aid then consolidateMark newId m else m) =
      markIfSrc newId (aid :: ids) m := by
  unfold markIfSrc
  by_cases h1 : m.id = aid
  · rw [if_pos h1, consolidateMark_id, consolidateMark_mark, ite_self,
      if_pos ((List.mem_cons).2 (Or.inl h1))]
  · rw [if_neg h1]
    by_cases h2 : m.id ∈ ids
    · rw [if_pos h2, if_pos ((List.mem_cons).2 (Or.inr h2))]
    · rw [if_neg h2, if_neg (fun hc => (List.mem_cons.1 hc).elim h1 h2)]

/-- `linkStep` only appends to the relationships table; its effect on the
memories table is `updateMemoryStatus`'s row update. -/
theorem linkStep_memories (newId : ℕ) (avgSim : ℚ) (now : ℤ) (d : Db) (s : Mem) :
    (linkStep newId avgSim now d s).memories =
      updMemAt d.memories s.id (consolidateMark newId) := rfl

/-- The consolidation loop's effect on the memories table: every row whose id
is a source id is marked consolidated under `newId`, every other row passes
through. -/
theorem linkFold_memories (newId : ℕ) (avgSim : ℚ) (now : ℤ) :
    ∀ (cluster : List Mem) (db : Db),
    (consolidateLinkSources cluster newId avgSim now db).memories =
      db.memories.map (markIfSrc newId (cluster.map (·.id))) := by
  intro cluster
  induction cluster with
  | nil =>
      intro db
      show db.memories = db.memories.map (markIfSrc newId (([] : List Mem).map (·.id)))
      rw [List.map_nil, markIfSrc_nil, List.map_id]
  | cons a rest ih =>
      intro db
      show (consolidateLinkSources rest newId avgSim now
          (linkStep newId avgSim now db a)).memories =
        db.memories.map (markIfSrc newId ((a :: rest).map (·.id)))
      rw [ih, linkStep_memories]
      unfold updMemAt
      rw [List.map_map]
      apply List.map_congr_left
      intro m _
      exact markIfSrc_cons newId a.id (rest.map (·.id)) m

/-- The memories table right after `createMemory` and the level `UPDATE`: the
fresh row is appended (ids already in the store are below the AUTOINCREMENT
counter, so the `WHERE id = ?` touches only the new row). -/
theorem consolidate_create_memories (db : Db) (scope : MScope) (ph : Option String)
    (imp lvl : ℕ) (now : ℤ)
    (hbound : ∀ m ∈ db.memories, m.id < db.nextMemoryId) :
    (setMemoryLevel (createMemory db scope ph imp now).2 db.nextMemoryId lvl).memories =
      db.memories ++
        [⟨db.nextMemoryId, imp, 5, 0, 0, MStatus.active, none, lvl, scope, ph, now, 0,
          none⟩] := by
  show updMemAt (db.memories ++ [⟨db.nextMemoryId, imp, 5, 0, 0, MStatus.active, none, 1,
      scope, ph, now, 0, none⟩]) db.nextMemoryId (fun m => { m with level := lvl }) = _
  unfold updMemAt
  rw [List.map_append]
  congr 1
  · have h : ∀ m ∈ db.memories,
        (if m.id = db.nextMemoryId then ({ m with level := lvl } : Mem) else m) = m := by
      intro m hm
      rw [if_neg]
      have := hbound m hm
      omega
    rw [List.map_congr_left h]
    exact List.map_id' db.memories
  · rw [List.map_singleton, if_pos rfl]

/-- The full effect of the per-cluster consolidation action on the memories
table: source rows are marked consolidated under the fresh id, other rows pass
through, and the abstraction record is appended. -/
theorem consolidateClusterStep_memories (db : Db) (c : ConsolidationCluster)
    (ph : Option String) (now : ℤ)
    (hbound : ∀ m ∈ db.memories, m.id < db.nextMemoryId)
    (hsub : ∀ m ∈ c.memories, m ∈ db.memories) :
    (consolidateClusterStep db c ph now).memories =
      db.memories.map (markIfSrc db.nextMemoryId (c.memories.map (·.id))) ++
        [abstractionMem db c ph now] := by
  have hni : (abstractionMem db c ph now).id ∉ c.memories.map (·.id) := by
    intro hin
    obtain ⟨m, hm, hid⟩ := List.mem_map.1 hin
    have hb := hbound m (hsub m hm)
    have hx : (abstractionMem db c ph now).id = db.nextMemoryId := rfl
    rw [hx] at hid
    omega
  show (consolidateLinkSources c.memories db.nextMemoryId c.averageSimilarity now
      (setMemoryLevel
        (createMemory db (consolidateScope c.memories)
          (if consolidateScope c.memories = MScope.project then ph else none)
          c.combinedImportance now).2
        db.nextMemoryId (min 3 ((c.memories.map (·.level)).foldr max 0 + 1)))).memories = _
  rw [linkFold_memories,
    consolidate_create_memories db (consolidateScope c.memories)
      (if consolidateScope c.memories = MScope.project then ph else none)
      c.combinedImportance (min 3 ((c.memories.map (·.level)).foldr max 0 + 1)) now hbound,
    List.map_append]
  congr 1
  rw [List.map_singleton]
  show [markIfSrc db.nextMemoryId (c.memories.map (·.id)) (abstractionMem db c ph now)] =
    [abstractionMem db c ph now]
  unfold markIfSrc
  rw [if_neg hni]

/-- A fold of `max` over a non-empty all-ones list of naturals is 1 (the
shape `Math.max(...cluster.memories.map(m => m.level))` takes on the live
consolidation path, where every candidate has `level === 1`). -/
theorem foldr_max_all_one : ∀ l : List ℕ, (∀ x ∈ l, x = 1) → l ≠ [] → l.foldr max 0 = 1 := by
  intro l
  induction l with
  | nil => intro _ h; exact absurd rfl h
  | cons a rest ih =>
      intro hall _
      have ha : a = 1 := hall a (List.mem_cons_self a rest)
      cases rest with
      | nil =>
          show max a 0 = 1
          rw [ha]
          decide
      | cons b r =>
          have hr := ih (fun x hx => hall x (List.mem_cons_of_mem a hx)) (by simp)
          show max a ((b :: r).foldr max 0) = 1
          rw [hr, ha]
          decide

/-- C3: for a cluster of `n ≥ 2` source memories (as built by
`findSimilarClusters`, whose members come from the live path's candidate set,
every one of `level === 1`), the non-dry-run per-cluster consolidation action
creates exactly one new memory — its id fresh, its level
`min(3, maxSourceLevel + 1)`, which on the level-1 sources is 2 — and sets
exactly those `n` source memories to `status = consolidated` with `parentId`
the new memory's id; every other memory passes through unchanged, and the
store grows by exactly one record. -/
theorem c3_consolidation (db : Db) (c : ConsolidationCluster) (ph : Option String) (now : ℤ)
    (hbound : ∀ m ∈ db.memories, m.id < db.nextMemoryId)
    (hsub : ∀ m ∈ c.memories, m ∈ db.memories)
    (hn : 2 ≤ c.memories.length)
    (hlvl : ∀ m ∈ c.memories, m.level = 1) :
    ((consolidateClusterStep db c ph now).memories.filter
        (fun m => ¬ m.id ∈ db.memories.map (·.id))).map (fun m => (m.id, m.level)) =
      [(db.nextMemoryId, min 3 ((c.memories.map (·.level)).foldr max 0 + 1))] ∧
    min 3 ((c.memories.map (·.level)).foldr max 0 + 1) = 2 ∧
    (∀ m ∈ c.memories, consolidateMark db.nextMemoryId m ∈
        (consolidateClusterStep db c ph now).memories ∧
      (consolidateMark db.nextMemoryId m).status = MStatus.consolidated ∧
      (consolidateMark db.nextMemoryId m).parentId = some db.nextMemoryId ∧
      (consolidateMark db.nextMemoryId m).id = m.id) ∧
    (∀ m ∈ db.memories, m.id ∉ c.memories.map (·.id) →
      m ∈ (consolidateClusterStep db c ph now).memories) ∧
    (consolidateClusterStep db c ph now).memories.length = db.memories.length + 1 := by
  have hmem := consolidateClusterStep_memories db c ph now hbound hsub
  have hidF : ∀ m : Mem,
      (markIfSrc db.nextMemoryId (c.memories.map (·.id)) m).id = m.id := by
    intro m
    unfold markIfSrc
    by_cases h : m.id ∈ c.memories.map (·.id)
    · rw [if_pos h, consolidateMark_id]
    · rw [if_neg h]
  refine ⟨?_, ?_, ?_, ?_, ?_⟩
  · rw [hmem, List.filter_append]
    have h1 : ((db.memories.map (markIfSrc db.nextMemoryId (c.memories.map (·.id)))).filter
        (fun m => ¬ m.id ∈ db.memories.map (·.id))) = [] := by
      rw [List.filter_eq_nil_iff]
      intro a ha
      obtain ⟨m, hm, rfl⟩ := List.mem_map.1 ha
      simp only [hidF, decide_not, Bool.not_eq_true', decide_eq_false_iff_not, not_not]
      exact List.mem_map_of_mem _ hm
    have h2 : ([abstractionMem db c ph now].filter
        (fun m => ¬ m.id ∈ db.memories.map (·.id))) = [abstractionMem db c ph now] := by
      have hni : ¬ (abstractionMem db c ph now).id ∈ db.memories.map (·.id) := by
        intro hin
        obtain ⟨m, hm, hid⟩ := List.mem_map.1 hin
        have hb := hbound m hm
        have hcm : (abstractionMem db c ph now).id = db.nextMemoryId := rfl
        omega
      rw [List.filter_cons, if_pos (by simpa using hni)]
      rfl
    rw [h1, h2]
    rfl
  · have hmax : (c.memories.map (·.level)).foldr max 0 = 1 := by
      apply foldr_max_all_one
      · intro x hx
        obtain ⟨m, hm, rfl⟩ := List.mem_map.1 hx
        exact hlvl m hm
      · intro hnil
        have hl := congrArg List.length hnil
        rw [List.length_map, List.length_nil] at hl
        omega
    rw [hmax]
    decide
  · intro m hm
    have hmid : m.id ∈ c.memories.map (·.id) := List.mem_map_of_mem _ hm
    refine ⟨?_, rfl, rfl, rfl⟩
    rw [hmem]
    refine List.mem_append_left _ ?_
    have he : markIfSrc db.nextMemoryId (c.memories.map (·.id)) m =
        consolidateMark db.nextMemoryId m := by
      unfold markIfSrc
      rw [if_pos hmid]
    exact he ▸ List.mem_map_of_mem _ (hsub m hm)
  · intro m hm hni
    rw [hmem]
    refine List.mem_append_left _ ?_
    have he : markIfSrc db.nextMemoryId (c.memories.map (·.id)) m = m := by
      unfold markIfSrc
      rw [if_neg hni]
    exact he ▸ List.mem_map_of_mem _ hm
  · rw [hmem, List.length_append, List.length_map]
    rfl

/-- Witness for C3: consolidating a cluster of two level-1 memories
(importances 6 and 4, so `combinedImportance = min(9, 6 + floor(log2 2)) = 7`)
in a two-memory store; the new memory gets id 3 and level `min(3, 1+1) = 2`. -/
theorem c3_witness :
    ((consolidateClusterStep
        ⟨[⟨1, 6, 5, 0, 0, MStatus.active, none, 1, MScope.global, none, 0, 0, none⟩,
          ⟨2, 4, 5, 0, 0, MStatus.active, none, 1, MScope.project, none, 0, 0, none⟩],
          [], [], 3, 1, 1⟩
        ⟨[⟨1, 6, 5, 0, 0, MStatus.active, none, 1, MScope.global, none, 0, 0, none⟩,
          ⟨2, 4, 5, 0, 0, MStatus.active, none, 1, MScope.project, none, 0, 0, none⟩],
          mkRat 9 10, 7⟩
        none 7).memories.filter
      (fun m => ¬ m.id ∈ ([⟨1, 6, 5, 0, 0, MStatus.active, none, 1, MScope.global, none, 0, 0,
        none⟩, ⟨2, 4, 5, 0, 0, MStatus.active, none, 1, MScope.project, none, 0, 0, none⟩] :
          List Mem).map (·.id))).map (fun m => (m.id, m.level)) = [(3, 2)] :=
  (c3_consolidation
    ⟨[⟨1, 6, 5, 0, 0, MStatus.active, none, 1, MScope.global, none, 0, 0, none⟩,
      ⟨2, 4, 5, 0, 0, MStatus.active, none, 1, MScope.project, none, 0, 0, none⟩],
      [], [], 3, 1, 1⟩
    ⟨[⟨1, 6, 5, 0, 0, MStatus.active, none, 1, MScope.global, none, 0, 0, none⟩,
      ⟨2, 4, 5, 0, 0, MStatus.active, none, 1, MScope.project, none, 0, 0, none⟩],
      mkRat 9 10, 7⟩
    none 7 (by decide) (by decide) (by decide) (by decide)).1

theorem pureFetch_step {db : Db} {p : ℕ × ℚ} {m : Mem}
    (h : (match db.memories.find? (fun x => x.id = p.1) with
          | some m0 => if m0.status = MStatus.active then some m0 else none
          | none => none) = some m) :
    db.memories.find? (fun x => x.id = p.1) = some m ∧ m.status = MStatus.active := by
  cases hf : db.memories.find? (fun x => x.id = p.1) with
  | none =>
      rw [hf] at h
      dsimp only at h
      cases h
  | some m0 =>
      rw [hf] at h
      dsimp only at h
      by_cases hs : m0.status = MStatus.active
      · rw [if_pos hs] at h
        injection h with h
        subst h
        exact ⟨rfl, hs⟩
      · rw [if_neg hs] at h
        cases h

theorem fetchActive_eq_pure {now : ℤ} (ps : List (ℕ × ℚ)) (db db0 : Db)
    (hagree : ∀ p ∈ ps, db.memories.find? (fun m => m.id = p.1) =
      db0.memories.find? (fun m => m.id = p.1))
    (hnd : (ps.map Prod.fst).Nodup) :
    (fetchActive now ps db).1 = pureFetch db0 ps := by
  induction ps generalizing db with
  | nil => rfl
  | cons p ps ih =>
    have hp1 : ∀ q ∈ ps, ¬ q.1 = p.1 := by
      intro q hq he
      have h1 : p.1 ∉ ps.map Prod.fst := (List.nodup_cons.1 (by simpa using hnd)).1
      exact h1 (he ▸ List.mem_map_of_mem _ hq)
    have hnd' : (ps.map Prod.fst).Nodup := (List.nodup_cons.1 (by simpa using hnd)).2
    unfold fetchActive pureFetch getMemory
    rw [List.filterMap_cons]
    rw [hagree p (List.mem_cons_self _ _)]
    have hrec : (fetchActive now ps
        { db with memories := updMemAt db.memories p.1 (accessBump now) }).1 =
        pureFetch db0 ps := by
      apply ih
      · intro q hq
        show (updMemAt db.memories p.1 (accessBump now)).find? (fun x => x.id = q.1) = _
        have hcomm := updMemAt_find?_ne db.memories p.1 q.1 (accessBump now)
          (fun x => rfl) (hp1 q hq)
        rw [hcomm]
        exact hagree q (List.mem_cons_of_mem _ hq)
      · exact hnd'
    cases h0 : db0.memories.find? (fun m => m.id = p.1) with
    | none =>
        dsimp only
        exact ih db (fun q hq => hagree q (List.mem_cons_of_mem _ hq)) hnd'
    | some m =>
        dsimp only
        by_cases hs : m.status = MStatus.active
        · rw [if_pos hs, if_pos hs]
          dsimp only
          rw [hrec]
          rfl
        · rw [if_neg hs, if_neg hs]
          exact hrec

theorem mem_suggestPairs {db : Db} {ids : List ℕ} {p : ℕ × ℚ}
    (hp : p ∈ suggestPairs db ids) :
    p.2 = coAccessTotal db ids p.1 ∧ p.1 ∉ ids := by
  unfold suggestPairs at hp
  rw [List.mem_insertionSort] at hp
  obtain ⟨k, hk, rfl⟩ := List.mem_map.1 hp
  refine ⟨rfl, ?_⟩
  have := List.mem_filter.1 hk
  simpa using this.2

theorem suggestPairs_fst_nodup (db : Db) (ids : List ℕ) :
    ((suggestPairs db ids).map Prod.fst).Nodup := by
  unfold suggestPairs
  have hperm : (suggestPairs db ids).Perm
      ((((simRows db ids).map (relatedId ids)).dedup.filter (fun k => k ∉ ids)).map
        (fun k => (k, coAccessTotal db ids k))) := List.perm_insertionSort _ _
  have hkeys : ((((simRows db ids).map (relatedId ids)).dedup.filter
      (fun k => k ∉ ids)).map (fun k => (k, coAccessTotal db ids k))).map Prod.fst =
      (((simRows db ids).map (relatedId ids)).dedup.filter (fun k => k ∉ ids)) := by
    rw [List.map_map]
    have hcomp : (Prod.fst ∘ fun k => (k, coAccessTotal db ids k)) = fun k : ℕ => k := rfl
    rw [hcomp, List.map_id']
  have hnd : ((((simRows db ids).map (relatedId ids)).dedup.filter
      (fun k => k ∉ ids)).map (fun k => (k, coAccessTotal db ids k))).map Prod.fst |>.Nodup := by
    rw [hkeys]
    exact (List.nodup_dedup _).filter _
  exact ((List.perm_insertionSort _ _).map Prod.fst).nodup_iff.2 hnd

theorem suggestPairs_sorted (db : Db) (ids : List ℕ) :
    List.Sorted suggOrder (suggestPairs db ids) :=
  List.sorted_insertionSort _ _

/-- C8 counterexample: memories 1 (usefulnessScore 1) and 2 (usefulnessScore
9) are both connected to memory 3 by a `similar` edge of strength 2 — equal
totals — yet the suggestion list for `[3]` is `[1, 2]`: the tie is not broken
by higher `usefulnessScore` (the SQL only orders by `SUM(strength)`; the
`memories` table, and hence the score, is not even read by the ranking
query). -/
theorem c8_counterexample :
    coAccessTotal ⟨[⟨1, 5, 1, 0, 0, MStatus.active, none, 1, MScope.global, none, 0, 0, none⟩,
        ⟨2, 5, 9, 0, 0, MStatus.active, none, 1, MScope.global, none, 0, 0, none⟩,
        ⟨3, 5, 5, 0, 0, MStatus.active, none, 1, MScope.global, none, 0, 0, none⟩],
      [⟨1, 1, 3, RelType.similar, 2, 0⟩, ⟨2, 2, 3, RelType.similar, 2, 0⟩], [], 4, 3, 1⟩ [3] 1 =
    coAccessTotal ⟨[⟨1, 5, 1, 0, 0, MStatus.active, none, 1, MScope.global, none, 0, 0, none⟩,
        ⟨2, 5, 9, 0, 0, MStatus.active, none, 1, MScope.global, none, 0, 0, none⟩,
        ⟨3, 5, 5, 0, 0, MStatus.active, none, 1, MScope.global, none, 0, 0, none⟩],
      [⟨1, 1, 3, RelType.similar, 2, 0⟩, ⟨2, 2, 3, RelType.similar, 2, 0⟩], [], 4, 3, 1⟩ [3] 2 ∧
    ((getSuggestedMemories
        ⟨[⟨1, 5, 1, 0, 0, MStatus.active, none, 1, MScope.global, none, 0, 0, none⟩,
          ⟨2, 5, 9, 0, 0, MStatus.active, none, 1, MScope.global, none, 0, 0, none⟩,
          ⟨3, 5, 5, 0, 0, MStatus.active, none, 1, MScope.global, none, 0, 0, none⟩],
        [⟨1, 1, 3, RelType.similar, 2, 0⟩, ⟨2, 2, 3, RelType.similar, 2, 0⟩], [], 4, 3, 1⟩
        [3] 2 0).1.map (fun m => (m.id, m.usefulnessScore))) = [(1, 1), (2, 9)] := by
  constructor
  · norm_num [coAccessTotal, simRows, relatedId]
  · norm_num [getSuggestedMemories, suggestPairs, simRows, relatedId, coAccessTotal,
      fetchActive, getMemory, updMemAt, accessBump, List.insertionSort, List.orderedInsert,
      suggOrder, List.dedup, List.take, List.filter, List.filterMap, List.find?, List.pwFilter]

/-- C8 amended: `getSuggestedMemories` returns at most `limit` memories; each
returned memory is active, outside the current set, and a record of the
store; and the list is ordered by weakly descending total `similar`-edge
strength, ties resolved by ascending memory id (the query's internal group
order) — usefulnessScore plays no part in the ranking. -/
theorem c8_amended_suggestions (db : Db) (currentMemoryIds : List ℕ) (limit : ℕ) (now : ℤ) :
    ((getSuggestedMemories db currentMemoryIds limit now).1.length ≤ limit) ∧
    (∀ m ∈ (getSuggestedMemories db currentMemoryIds limit now).1,
      m.status = MStatus.active ∧ m.id ∉ currentMemoryIds ∧ m ∈ db.memories) ∧
    ((getSuggestedMemories db currentMemoryIds limit now).1.Pairwise fun m m' =>
      coAccessTotal db currentMemoryIds m'.id < coAccessTotal db currentMemoryIds m.id ∨
      (coAccessTotal db currentMemoryIds m.id = coAccessTotal db currentMemoryIds m'.id ∧
        m.id ≤ m'.id)) := by
  unfold getSuggestedMemories
  by_cases hemp : currentMemoryIds.isEmpty
  · rw [if_pos hemp]
    exact ⟨by simp, by simp, by simp⟩
  · rw [if_neg hemp]
    have hndfst : (((suggestPairs db currentMemoryIds).take limit).map Prod.fst).Nodup := by
      rw [List.map_take]
      exact (suggestPairs_fst_nodup db currentMemoryIds).sublist (List.take_sublist _ _)
    have hpure : (fetchActive now ((suggestPairs db currentMemoryIds).take limit) db).1 =
        pureFetch db ((suggestPairs db currentMemoryIds).take limit) :=
      fetchActive_eq_pure _ db db (fun p _ => rfl) hndfst
    have hsub : ∀ p ∈ (suggestPairs db currentMemoryIds).take limit,
        p ∈ suggestPairs db currentMemoryIds :=
      fun p hp => List.take_subset _ _ hp
    refine ⟨?_, ?_, ?_⟩
    · rw [hpure]
      refine le_trans (List.length_filterMap_le _ _) ?_
      rw [List.length_take]
      exact min_le_left _ _
    · intro m hm
      rw [hpure] at hm
      obtain ⟨p, hp, hfp⟩ := List.mem_filterMap.1 hm
      obtain ⟨hfind, hact⟩ := pureFetch_step hfp
      have hid : m.id = p.1 := by simpa using List.find?_some hfind
      have hmem := List.mem_of_find?_eq_some hfind
      have hnotin := (mem_suggestPairs (hsub p hp)).2
      exact ⟨hact, by rw [hid]; exact hnotin, hmem⟩
    · rw [hpure]
      have hsorted : List.Pairwise suggOrder ((suggestPairs db currentMemoryIds).take limit) :=
        List.Pairwise.sublist (List.take_sublist _ _) (suggestPairs_sorted db currentMemoryIds)
      have hshape : List.Pairwise (fun p p' : ℕ × ℚ =>
          coAccessTotal db currentMemoryIds p'.1 < coAccessTotal db currentMemoryIds p.1 ∨
          (coAccessTotal db currentMemoryIds p.1 = coAccessTotal db currentMemoryIds p'.1 ∧
            p.1 ≤ p'.1)) ((suggestPairs db currentMemoryIds).take limit) := by
        refine List.Pairwise.imp_of_mem ?_ hsorted
        intro a b ha hb hab
        have h2a := (mem_suggestPairs (hsub a ha)).1
        have h2b := (mem_suggestPairs (hsub b hb)).1
        unfold suggOrder at hab
        rw [h2a, h2b] at hab
        exact hab
      unfold pureFetch
      refine List.Pairwise.filterMap _ ?_ hshape
      intro a b hab ma hma mb hmb
      obtain ⟨hfa, -⟩ := pureFetch_step (Option.mem_def.1 hma)
      obtain ⟨hfb, -⟩ := pureFetch_step (Option.mem_def.1 hmb)
      have hida : ma.id = a.1 := by simpa using List.find?_some hfa
      have hidb : mb.id = b.1 := by simpa using List.find?_some hfb
      rw [hida, hidb]
      exact hab

/-- Witness for C8's amended claim at a concrete store: the suggestion list
for `[3]` with limit 2 holds at most 2 memories. -/
theorem c8_amended_witness :
    (getSuggestedMemories
      ⟨[⟨1, 5, 1, 0, 0, MStatus.active, none, 1, MScope.global, none, 0, 0, none⟩,
        ⟨2, 5, 9, 0, 0, MStatus.active, none, 1, MScope.global, none, 0, 0, none⟩,
        ⟨3, 5, 5, 0, 0, MStatus.active, none, 1, MScope.global, none, 0, 0, none⟩],
      [⟨1, 1, 3, RelType.similar, 2, 0⟩, ⟨2, 2, 3, RelType.similar, 2, 0⟩], [], 4, 3, 1⟩
      [3] 2 0).1.length ≤ 2 :=
  (c8_amended_suggestions
    ⟨[⟨1, 5, 1, 0, 0, MStatus.active, none, 1, MScope.global, none, 0, 0, none⟩,
      ⟨2, 5, 9, 0, 0, MStatus.active, none, 1, MScope.global, none, 0, 0, none⟩,
      ⟨3, 5, 5, 0, 0, MStatus.active, none, 1, MScope.global, none, 0, 0, none⟩],
    [⟨1, 1, 3, RelType.similar, 2, 0⟩, ⟨2, 2, 3, RelType.similar, 2, 0⟩], [], 4, 3, 1⟩
    [3] 2 0).1

/-- Witness for C1 at the claim's concrete scenario. -/
theorem c1_witness : updateUsefulnessScore 5 0 0 0 0 = 4 :=
  c1_scorer_formula.2.2

end C4
